import Mathlib

/-!
Verification of the topic-ticket registration and radius-convergence engine
from `p2p/discover/ticket.go`.

Shallow embedding conventions:
* Go `uint64` values are `Nat` with explicit `% 2^64` wherever overflow or
  wraparound matters (`u64sub` models wrapping subtraction).
* Go `float64` arithmetic is modelled exactly over `ℚ`; `float64`-to-`uint64`
  conversion is truncation toward zero (`ratTrunc`).
* Go maps are association lists (`alookup`/`ainsert`/`aerase`); iteration
  order of a `range` over a map is the list order.
* Go slices stored in a map are modelled by the list of elements visible
  through the stored slice header.  `ticketStore.fetch` reads a bucket's
  slice header into a local variable and shrinks the local copy in place
  without writing the header back, so the map keeps the stale length while
  the shared backing array is mutated; `scanBucket` reproduces exactly this
  aliasing behaviour (the `kept ++ beyond` result below).
* Tickets are heap objects shared by reference; the heap is a map from a
  ticket id (the pointer) to the ticket record, and a `ticketRef` is a pair
  (ticket id, topic index).
* External inputs (the Keccak topic-hash prefix, `rand.ExpFloat64`,
  `rand.Int63n`, the wall clock read by `ticketsInWindow`) are supplied as
  explicit parameters.
-/

/-- 2^64, the modulus of Go's `uint64` arithmetic. -/
def U64 : Nat := 18446744073709551616

/-- 2^63, the first value that is negative when a `uint64` is reinterpreted
as an `int64` (`time.Duration`). -/
def I64Min : Nat := 9223372036854775808

/-- 2^32, the modulus of Go's `uint32` arithmetic. -/
def U32 : Nat := 4294967296

/-- `ticketGroupTime = uint64(time.Minute)`: nanoseconds per time bucket. -/
def ticketGroupTime : Nat := 60000000000

/-- `timeWindow = 30`: number of buckets summed by `ticketsInWindow`. -/
def timeWindow : Nat := 30

/-- `keepTicketConst = uint64(time.Minute) * 20`. -/
def keepTicketConst : Nat := 1200000000000

/-- `keepTicketExp = uint64(time.Minute) * 20`. -/
def keepTicketExp : Nat := 1200000000000

/-- `maxRadius = 0xffffffffffffffff`. -/
def maxRadius : Nat := 18446744073709551615

/-- `minRadAverage = 1024`. -/
def minRadAverage : Nat := 1024

/-- `targetWaitTime = uint64(time.Minute) * 10`. -/
def targetWaitTime : Nat := 600000000000

/-- `time.Second` in nanoseconds. -/
def nsPerSec : Nat := 1000000000

/-- Wrapping `uint64` subtraction `a - b`. -/
def u64sub (a b : Nat) : Nat := (a % U64 + (U64 - b % U64)) % U64

/-- Go `uint64(q)` for a `float64` value `q`, modelled exactly on `ℚ`:
truncation toward zero (negative values, undefined in Go, are sent to 0;
they never arise on the paths that perform this conversion). -/
def ratTrunc (q : ℚ) : Nat := (q.num / (q.den : Int)).toNat

/-- Reinterpret a `uint64` bit pattern as an `int64` (Go
`time.Duration(x)`). -/
def i64ofU64 (n : Nat) : Int :=
  if n % U64 < I64Min then (n % U64 : Int) else (n % U64 : Int) - (U64 : Int)

/-- Go `uint64(i)` for an `int64` value `i`: the low 64 bits. -/
def u64ofI64 (i : Int) : Nat := (i % (U64 : Int)).toNat

/-- Go `uint32(i)` for an `int64` value `i`: the low 32 bits. -/
def u32ofI64 (i : Int) : Nat := (i % (U32 : Int)).toNat

section AList

variable {κ : Type} {α : Type} [DecidableEq κ]

/-- Association-list lookup, modelling a Go map read. -/
def alookup : List (κ × α) → κ → Option α
  | [], _ => none
  | (k, v) :: t, k' => if k' = k then some v else alookup t k'

/-- Association-list insert/overwrite, modelling a Go map write. -/
def ainsert : List (κ × α) → κ → α → List (κ × α)
  | [], k, v => [(k, v)]
  | (k₀, v₀) :: t, k, v =>
    if k₀ = k then (k, v) :: t else (k₀, v₀) :: ainsert t k v

/-- Association-list key removal, modelling Go `delete`. -/
def aerase : List (κ × α) → κ → List (κ × α)
  | [], _ => []
  | (k₀, v₀) :: t, k => if k₀ = k then t else (k₀, v₀) :: aerase t k

theorem alookup_ainsert (m : List (κ × α)) (k : κ) (v : α) (k' : κ) :
    alookup (ainsert m k v) k' = if k' = k then some v else alookup m k' := by
  induction m with
  | nil => simp [ainsert, alookup]
  | cons hd t ih =>
    obtain ⟨k₀, v₀⟩ := hd
    by_cases h₀ : k₀ = k
    · subst h₀
      by_cases h' : k' = k₀ <;> simp [ainsert, alookup, h']
    · by_cases h' : k' = k₀
      · subst h'
        simp [ainsert, alookup, h₀]
      · simp [ainsert, alookup, h₀, h', ih]

theorem alookup_ainsert_self (m : List (κ × α)) (k : κ) (v : α) :
    alookup (ainsert m k v) k = some v := by
  rw [alookup_ainsert]
  simp

theorem alookup_aerase_ne (m : List (κ × α)) (k k' : κ) (h : k' ≠ k) :
    alookup (aerase m k) k' = alookup m k' := by
  induction m with
  | nil => simp [aerase]
  | cons hd t ih =>
    obtain ⟨k₀, v₀⟩ := hd
    by_cases h₀ : k₀ = k
    · subst h₀
      simp [aerase, alookup, h]
    · by_cases h' : k' = k₀ <;> simp [aerase, alookup, h₀, h', ih]

theorem alookup_eq_none_of_not_mem_keys (m : List (κ × α)) (k : κ)
    (h : k ∉ m.map Prod.fst) : alookup m k = none := by
  induction m with
  | nil => simp [alookup]
  | cons hd t ih =>
    obtain ⟨k₀, v₀⟩ := hd
    simp only [List.map_cons, List.mem_cons] at h
    push_neg at h
    simp only [alookup, if_neg h.1]
    exact ih h.2

theorem alookup_aerase_self (m : List (κ × α)) (k : κ)
    (h : (m.map Prod.fst).Nodup) : alookup (aerase m k) k = none := by
  induction m with
  | nil => simp [aerase, alookup]
  | cons hd t ih =>
    obtain ⟨k₀, v₀⟩ := hd
    simp only [List.map_cons, List.nodup_cons] at h
    by_cases h₀ : k₀ = k
    · subst h₀
      simp only [aerase, if_pos rfl]
      exact alookup_eq_none_of_not_mem_keys t k₀ h.1
    · simp only [aerase, if_neg h₀, alookup, if_neg (fun hh : k = k₀ => h₀ hh.symm)]
      exact ih h.2

theorem mem_keys_ainsert (m : List (κ × α)) (k : κ) (v : α) (k' : κ)
    (h : k' ∈ (ainsert m k v).map Prod.fst) :
    k' ∈ m.map Prod.fst ∨ k' = k := by
  induction m with
  | nil =>
    simp only [ainsert, List.map_cons, List.map_nil, List.mem_singleton] at h
    exact Or.inr h
  | cons hd t ih =>
    obtain ⟨k₀, v₀⟩ := hd
    by_cases h₀ : k₀ = k
    · subst h₀
      simp [ainsert] at h ⊢
      tauto
    · simp only [ainsert, if_neg h₀, List.map_cons, List.mem_cons] at h ⊢
      rcases h with h | h
      · exact Or.inl (Or.inl h)
      · rcases ih h with hh | hh
        · exact Or.inl (Or.inr hh)
        · exact Or.inr hh

theorem nodup_keys_ainsert (m : List (κ × α)) (k : κ) (v : α)
    (h : (m.map Prod.fst).Nodup) : ((ainsert m k v).map Prod.fst).Nodup := by
  induction m with
  | nil => simp [ainsert]
  | cons hd t ih =>
    obtain ⟨k₀, v₀⟩ := hd
    simp only [List.map_cons, List.nodup_cons] at h
    by_cases h₀ : k₀ = k
    · subst h₀
      simpa [ainsert] using h
    · simp only [ainsert, if_neg h₀, List.map_cons, List.nodup_cons]
      refine ⟨fun hm => ?_, ih h.2⟩
      rcases mem_keys_ainsert t k v k₀ hm with hm | hm
      · exact h.1 hm
      · exact h₀ hm

theorem mem_keys_aerase (m : List (κ × α)) (k k' : κ)
    (h : k' ∈ (aerase m k).map Prod.fst) : k' ∈ m.map Prod.fst := by
  induction m with
  | nil => simp [aerase] at h
  | cons hd t ih =>
    obtain ⟨k₀, v₀⟩ := hd
    by_cases h₀ : k₀ = k
    · subst h₀
      simp only [aerase, if_pos rfl] at h
      exact List.mem_cons_of_mem _ h
    · simp only [aerase, if_neg h₀, List.map_cons, List.mem_cons] at h ⊢
      rcases h with h | h
      · exact Or.inl h
      · exact Or.inr (ih h)

theorem nodup_keys_aerase (m : List (κ × α)) (k : κ)
    (h : (m.map Prod.fst).Nodup) : ((aerase m k).map Prod.fst).Nodup := by
  induction m with
  | nil => simp [aerase]
  | cons hd t ih =>
    obtain ⟨k₀, v₀⟩ := hd
    simp only [List.map_cons, List.nodup_cons] at h
    by_cases h₀ : k₀ = k
    · subst h₀
      simpa [aerase] using h.2
    · simp only [aerase, if_neg h₀, List.map_cons, List.nodup_cons]
      exact ⟨fun hm => h.1 (mem_keys_aerase t k k₀ hm), ih h.2⟩

end AList

/-- A peer's `NodeID`.  Only the leading 64 bits (`pfx`) enter distance
arithmetic; `rest` stands for the remaining bits, so that distinct IDs may
share a prefix. -/
structure NodeId where
  pfx : Nat
  rest : Nat
  deriving DecidableEq

/-- The `ticket` record.  `refCnt` is a Go `int` and may in principle go
negative, hence `Int`. -/
structure TicketData where
  topics : List Nat
  regTime : List Nat
  serial : Nat
  issueTime : Nat
  node : NodeId
  refCnt : Int
  pong : List Nat
  deriving DecidableEq

/-- A `ticketRef`: (ticket id, topic index). -/
abbrev Ref := Nat × Nat

/-- Per-topic state `topicTickets`.  `timeB = none` models a nil `time`
map (topic not being registered). -/
structure TopicState where
  topicHashPfx : Nat
  radius : Nat
  filteredRadius : ℚ
  converged : Bool
  timeB : Option (List (Nat × List Ref))
  deriving DecidableEq

/-- The shared mutable object graph: the ticket heap (pointer table) and
the `nodes : NodeID -> *ticket` index of the store. -/
structure Core where
  heap : List (Nat × TicketData)
  nodes : List (NodeId × Nat)
  deriving DecidableEq

/-- The `ticketStore`. -/
structure St where
  topics : List (Nat × TopicState)
  core : Core
  lastGroupFetched : Nat
  minRadSum : ℚ
  minRadCnt : Nat
  minRadius : Nat
  deriving DecidableEq

/-- `newTicketStore()`. -/
def initialStore : St :=
  { topics := [], core := { heap := [], nodes := [] }, lastGroupFetched := 0,
    minRadSum := 0, minRadCnt := 0, minRadius := 0 }

/-- `newtopicTickets(t, register)`.  The Keccak-derived 64-bit topic hash
prefix is an input (the hash itself is outside this core). -/
def newtopicTickets (hashPfx : Nat) (register : Bool) : TopicState :=
  { topicHashPfx := hashPfx % U64, radius := maxRadius,
    filteredRadius := (maxRadius : ℚ), converged := false,
    timeB := if register then some [] else none }

/-- `ticketStore.addTopic`. -/
def addTopicOp (t hashPfx : Nat) (register : Bool) (st : St) : St :=
  match alookup st.topics t with
  | some _ => st
  | none => { st with topics := ainsert st.topics t (newtopicTickets hashPfx register) }

/-- Allocation of a fresh `ticket` object (the boundary where a decoded
pong becomes a heap object handed to `add`); `refCnt` starts at the Go
zero value 0 and `uint64` fields are reduced mod 2^64. -/
def newTicketOp (tid : Nat) (tps rts : List Nat) (node : NodeId)
    (serial issueTime : Nat) (st : St) : St :=
  match alookup st.core.heap tid with
  | some _ => st
  | none =>
    let td : TicketData :=
      { topics := tps, regTime := rts.map (· % U64), serial := serial,
        issueTime := issueTime % U64,
        node := { pfx := node.pfx % U64, rest := node.rest },
        refCnt := 0, pong := [] }
    { st with core := { st.core with heap := ainsert st.core.heap tid td } }

/-- `topicTickets.isInRadius`. -/
def isInRadius (tt : TopicState) (nodePfx : Nat) : Bool :=
  Nat.xor nodePfx tt.topicHashPfx < tt.radius

/-- The convergence-detection tail of `topicTickets.adjust` (the
`if !r.converged` block); `radF` is the local float variable `radius`. -/
def convStep (radF : ℚ) (r : TopicState) : TopicState :=
  if r.converged = false then
    if r.filteredRadius ≤ radF then { r with converged := true }
    else { r with filteredRadius := r.filteredRadius + (radF - r.filteredRadius) * (1 / 20) }
  else r

/-- `topicTickets.adjust(localTime, t, minRadius)`; `regT` is
`t.t.regTime[t.idx]` supplied by the caller. -/
def adjust (localTime regT minRad : Nat) (r : TopicState) : TopicState :=
  let wait : Nat := u64sub regT localTime
  let a1 : ℚ := ((wait : ℚ) / (targetWaitTime : ℚ) - 1) * 2
  let a2 : ℚ := if 1 < a1 then 1 else a1
  let a3 : ℚ := if a2 < -1 then -1 else a2
  let a4 : ℚ := if r.converged then a3 * (1 / 100) else a3 * (1 / 10)
  let rad : ℚ := (r.radius : ℚ) * (1 + a4)
  if (maxRadius : ℚ) < rad then
    convStep (maxRadius : ℚ) { r with radius := maxRadius }
  else
    let nr := ratTrunc rad
    let nr2 := if nr < minRad then minRad else nr
    convStep rad { r with radius := nr2 }

/-- One topic slot of the loop in `ticketStore.add`: radius adjustment
followed by probabilistic retention.  `rnds` is the stream of
`rand.ExpFloat64()` draws (consumed only when the draw happens in the Go
code); the `Nat` result counts `t.refCnt++` increments. -/
def addSlotStep (localTime minRad tid : Nat) (td : TicketData) (i topic : Nat)
    (acc : List (Nat × TopicState) × List ℚ × Nat) :
    List (Nat × TopicState) × List ℚ × Nat :=
  let topics := acc.1
  let rnds := acc.2.1
  let inc := acc.2.2
  match alookup topics topic with
  | none => (topics, rnds, inc)
  | some tt =>
    if isInRadius tt td.node.pfx then
      let tt1 := adjust localTime (td.regTime.getD i 0) minRad tt
      if tt1.converged then
        let wait := u64sub (td.regTime.getD i 0) localTime
        let rnd0 := rnds.headD 0
        let rnd : ℚ := if (10 : ℚ) < rnd0 then 10 else rnd0
        match tt1.timeB with
        | some tm =>
          if (wait : ℚ) < (keepTicketConst : ℚ) + (keepTicketExp : ℚ) * rnd then
            let tgroup := td.regTime.getD i 0 / ticketGroupTime
            let tm' := ainsert tm tgroup ((alookup tm tgroup).getD [] ++ [(tid, i)])
            (ainsert topics topic { tt1 with timeB := some tm' }, rnds.tail, inc + 1)
          else (ainsert topics topic tt1, rnds.tail, inc)
        | none => (ainsert topics topic tt1, rnds.tail, inc)
      else (ainsert topics topic tt1, rnds, inc)
    else (topics, rnds, inc)

/-- The `for i, topic := range t.topics` loop of `ticketStore.add`;
`i` is the running index. -/
def addSlots (localTime minRad tid : Nat) (td : TicketData) :
    Nat → List Nat → List (Nat × TopicState) × List ℚ × Nat →
    List (Nat × TopicState) × List ℚ × Nat
  | _, [], acc => acc
  | i, topic :: rest, acc =>
    addSlots localTime minRad tid td (i + 1) rest
      (addSlotStep localTime minRad tid td i topic acc)

/-- `ticketStore.add(localTime, t)`.  `tid` is the ticket pointer; a
dangling pointer (no heap entry) cannot occur in Go and is a no-op here. -/
def addOp (localTime tid : Nat) (rnds : List ℚ) (st : St) : St :=
  match alookup st.core.heap tid with
  | none => st
  | some td =>
    if (alookup st.core.nodes td.node).isSome then st
    else
      let lgf := if st.lastGroupFetched = 0 then localTime / ticketGroupTime
                 else st.lastGroupFetched
      let r := addSlots localTime st.minRadius tid td 0 td.topics (st.topics, rnds, 0)
      let td' := { td with refCnt := td.refCnt + r.2.2 }
      { st with
        topics := r.1,
        core :=
          { heap := ainsert st.core.heap tid td',
            nodes := if 0 < td'.refCnt then ainsert st.core.nodes td.node tid
                     else st.core.nodes },
        lastGroupFetched := lgf }

/-- The inner `for i < len(list)` scan of one bucket in
`ticketStore.fetch`.  `kept` are the elements confirmed in place, `beyond`
the positions past the local slice's length that the map's stale header
still exposes (each in-place removal leaves the then-last element
duplicated there), `res` the accumulated result ticket ids. -/
def scanBucket (localTime : Nat) :
    List Ref → List Ref → List Ref → Core → List Nat →
    List Ref × Core × List Nat
  | [], kept, beyond, c, res => (kept ++ beyond, c, res)
  | r :: rs, kept, beyond, c, res =>
    match alookup c.heap r.1 with
    | none => scanBucket localTime rs (kept ++ [r]) beyond c res
    | some td =>
      if td.regTime.getD r.2 0 ≤ localTime then
        let td' := { td with refCnt := td.refCnt - 1 }
        let c' : Core :=
          { heap := ainsert c.heap r.1 td',
            nodes := if td'.refCnt = 0 then aerase c.nodes td.node else c.nodes }
        scanBucket localTime rs kept (rs.getLastD r :: beyond) c' (res ++ [r.1])
      else scanBucket localTime rs (kept ++ [r]) beyond c res

/-- The `for g := s.lastGroupFetched; g <= ltGroup; g++` loop of
`ticketStore.fetch` for one topic; `fuel` counts the remaining iterations.
The scanned bucket's stale slice header (`kept ++ beyond`, original
length) is what the map keeps, because the Go code never writes the
shrunken slice back. -/
def fetchBuckets (localTime ltGroup : Nat) :
    Nat → Nat → List (Nat × List Ref) → Core → List Nat →
    List (Nat × List Ref) × Core × List Nat
  | _, 0, tm, c, res => (tm, c, res)
  | g, fuel + 1, tm, c, res =>
    let step :=
      match alookup tm g with
      | none => (tm, c, res)
      | some lst =>
        let s := scanBucket localTime lst [] [] c res
        (ainsert tm g s.1, s.2.1, s.2.2)
    let tm2 := if g = ltGroup then step.1 else aerase step.1 g
    fetchBuckets localTime ltGroup (g + 1) fuel tm2 step.2.1 step.2.2

/-- The `for _, tt := range s.topics` loop of `ticketStore.fetch`. -/
def fetchTopics (localTime ltGroup lgf : Nat) :
    List (Nat × TopicState) → Core → List Nat →
    List (Nat × TopicState) × Core × List Nat
  | [], c, res => ([], c, res)
  | (k, tt) :: rest, c, res =>
    match tt.timeB with
    | none =>
      let r := fetchTopics localTime ltGroup lgf rest c res
      ((k, tt) :: r.1, r.2.1, r.2.2)
    | some tm =>
      let b := fetchBuckets localTime ltGroup lgf (ltGroup + 1 - lgf) tm c res
      let r := fetchTopics localTime ltGroup lgf rest b.2.1 b.2.2
      ((k, { tt with timeB := some b.1 }) :: r.1, r.2.1, r.2.2)

/-- `ticketStore.fetch(localTime)`: returns the new store and the list of
returned ticket ids (a ticket id appears once per ref handed out). -/
def fetchOp (localTime : Nat) (st : St) : St × List Nat :=
  let ltGroup := localTime / ticketGroupTime
  let r := fetchTopics localTime ltGroup st.lastGroupFetched st.topics st.core []
  ({ st with topics := r.1, core := r.2.1, lastGroupFetched := ltGroup }, r.2.2)

/-- `ticketStore.adjustMinRadius(target, found)`; `tp`/`fp` are the
big-endian 64-bit prefixes of the two IDs. -/
def adjustMinRadiusOp (tp fp : Nat) (st : St) : St :=
  let dist := Nat.xor (tp % U64) (fp % U64)
  let mr0 : ℚ := (dist : ℚ) * 16
  let half : ℚ := (maxRadius : ℚ) / 2
  let mrAdjust : ℚ := if half < mr0 then half else mr0
  let cnt := if st.minRadCnt < minRadAverage then st.minRadCnt + 1 else st.minRadCnt
  let sum0 : ℚ := if st.minRadCnt < minRadAverage then st.minRadSum
                  else st.minRadSum - st.minRadSum / (minRadAverage : ℚ)
  let sum : ℚ := sum0 + mrAdjust
  { st with minRadSum := sum, minRadCnt := cnt,
            minRadius := ratTrunc (sum / (cnt : ℚ)) }

/-- `ticketStore.nextTarget(t)`, with the `rand.Int63n` draw supplied as
`rnd`.  Returns `none` exactly where the Go code panics: a nil-map
dereference when the topic is untracked, or `rand.Int63n(0)` when
`radius/2 = 0`.  The returned value is the 64-bit target prefix. -/
def nextTargetOpt (rnd : Nat) (topic : Nat) (st : St) : Option Nat :=
  match alookup st.topics topic with
  | none => none
  | some tt =>
    if tt.radius / 2 = 0 then none
    else some (Nat.xor tt.topicHashPfx ((rnd % (tt.radius / 2)) * 2))

/-- `ticketStore.ticketsInWindow(t)`, with the `atime.NanoTime()` reading
supplied as `now`.  Returns `none` exactly where the Go code panics (nil
dereference on an untracked topic); reads of a nil `time` map yield 0. -/
def ticketsInWindowOpt (now : Nat) (topic : Nat) (st : St) : Option Nat :=
  match alookup st.topics topic with
  | none => none
  | some tt =>
    let ltGroup := now / ticketGroupTime
    some ((List.range timeWindow).foldl
      (fun s j => s + ((alookup (tt.timeB.getD []) (ltGroup + j)).getD []).length) 0)

/-- `ticketStore.getNodeTicket(id)`. -/
def getNodeTicket (st : St) (n : NodeId) : Option Nat :=
  alookup st.core.nodes n

/-- `pongToTicket(localTime, topics, node, p)`: `wps` is the decoded
`WaitPeriods` list (`uint32` seconds), `rawData` the signed pong bytes. -/
def pongToTicket (localTime : Nat) (tps : List Nat) (node : NodeId)
    (wps : List Nat) (rawData : List Nat) : TicketData :=
  { issueTime := localTime % U64, node := node, topics := tps, pong := rawData,
    serial := 0, refCnt := 0,
    regTime := wps.map (fun wp => (localTime + (wp % U32) * nsPerSec) % U64) }

/-- The wire-level pong fields written by `ticketToPong`. -/
structure PongData where
  expiration : Nat
  topicHash : Nat
  ticketSerial : Nat
  waitPeriods : List Nat
  deriving DecidableEq

/-- `ticketToPong(t, pong)`; `rlpH` is the external `rlpHash`.  Go divides
the `uint64` times as `time.Duration` (`int64`) values, truncating toward
zero, then narrows. -/
def ticketToPong (rlpH : List Nat → Nat) (t : TicketData) : PongData :=
  { expiration := u64ofI64 (Int.tdiv (i64ofU64 t.issueTime) (nsPerSec : Int)),
    topicHash := rlpH t.topics,
    ticketSerial := t.serial,
    waitPeriods := t.regTime.map
      (fun rt => u32ofI64 (Int.tdiv (i64ofU64 rt) (nsPerSec : Int))) }

/-- The operations whose interleavings the trace-level claims quantify
over.  `newTicket` is ticket allocation, `addTopic` topic registration;
randomness and hash prefixes are inputs. -/
inductive Op where
  | addTopic (topic hashPfx : Nat) (register : Bool)
  | newTicket (tid : Nat) (tps rts : List Nat) (node : NodeId) (serial issueTime : Nat)
  | add (localTime tid : Nat) (rnds : List ℚ)
  | fetch (localTime : Nat)
  | adjMinR (tp fp : Nat)

/-- Apply one operation to the store. -/
def applyOp : Op → St → St
  | Op.addTopic t hp reg, st => addTopicOp t hp reg st
  | Op.newTicket tid tps rts node ser it, st => newTicketOp tid tps rts node ser it st
  | Op.add lt tid rnds, st => addOp lt tid rnds st
  | Op.fetch lt, st => (fetchOp lt st).1
  | Op.adjMinR tp fp, st => adjustMinRadiusOp tp fp st

/-- Run a list of operations. -/
def runOps : List Op → St → St
  | [], st => st
  | op :: ops, st => runOps ops (applyOp op st)

/-- A per-step trace predicate: `P op st` must hold in the state `st` in
which `op` is executed. -/
def TraceP (P : Op → St → Prop) : List Op → St → Prop
  | [], _ => True
  | op :: ops, st => P op st ∧ TraceP P ops (applyOp op st)

/-- The trace exhibiting the lost-write in `ticketStore.fetch`: one topic,
one ticket whose single slot becomes due at local time 600000000000
(bucket 10), scheduled by `add` at local time 0. -/
def c1ops : List Op :=
  [Op.addTopic 0 0 true,
   Op.newTicket 0 [0] [600000000000] ⟨0, 0⟩ 0 0,
   Op.add 0 0 [0]]

/-- C1: the claim "no scheduled TicketRef is ever returned more than once"
fails on the code.  `fetch` shrinks the bucket's slice only in a local
variable and never stores it back (`ticket.go` line 181), so the map's
stale slice still exposes the removed ref: two successive `fetch` calls at
the same local time both return the one scheduled ticket, and its `refCnt`
is driven to -1. -/
theorem c1_fetch_returns_scheduled_ref_twice :
    (fetchOp 600000000000 (runOps c1ops initialStore)).2 = [0] ∧
    (fetchOp 600000000000
        (fetchOp 600000000000 (runOps c1ops initialStore)).1).2 = [0] ∧
    (alookup (fetchOp 600000000000
        (fetchOp 600000000000 (runOps c1ops initialStore)).1).1.core.heap 0).map
      TicketData.refCnt = some (-1) := by
  with_unfolding_all decide

/-- C3 counterexample: `ticketToPong` does not invert `pongToTicket`.
With local time 2s and a single wait period of 5s, the round-tripped
`WaitPeriods` entry is 7 (the absolute due time in seconds), not 5. -/
theorem c3_roundtrip_not_inverse :
    (ticketToPong (fun _ => 0)
        (pongToTicket 2000000000 [0] ⟨0, 0⟩ [5] [])).waitPeriods ≠ [5] := by
  decide

/-- The trace refuting the bucket-GC claim: ticket 0 (due at minute 15)
converges the topic at local time 0; ticket 1 is then scheduled into
bucket 2 while `lastGroupFetched` is still 0; an `add` at minute 5
re-triggers the lazy initialisation `lastGroupFetched = localTime /
ticketGroupTime` and jumps it to 5, so the later `fetch` at minute 7 scans
only buckets 5..7 and never deletes bucket 2. -/
def c9ops : List Op :=
  [Op.addTopic 0 0 true,
   Op.newTicket 0 [0] [900000000000] ⟨0, 0⟩ 0 0,
   Op.add 0 0 [0],
   Op.newTicket 1 [0] [150000000000] ⟨1, 0⟩ 0 0,
   Op.add 10000000000 1 [0],
   Op.newTicket 2 [] [] ⟨2, 0⟩ 0 0,
   Op.add 300000000000 2 [],
   Op.fetch 420000000000]

set_option maxRecDepth 100000 in
/-- C9 counterexample: after `fetch` at local time 420000000000 (bucket
7), the registered topic's time map still contains bucket 2, although
2 < 420000000000 / ticketGroupTime; the local times 0, 10000000000,
300000000000, 420000000000 of the trace are non-decreasing and no
regTime precedes its add's local time. -/
theorem c9_stale_bucket_survives_fetch :
    ((alookup (runOps c9ops initialStore).topics 0).map
      (fun tt => (alookup (tt.timeB.getD []) 2).isSome)) = some true ∧
    2 < 420000000000 / ticketGroupTime := by
  with_unfolding_all decide

/-- C6 counterexample: `nextTarget` on an untracked topic does not
"complete normally with silent rejection": the Go code dereferences the
nil `s.topics[t]` pointer and panics (modelled as `none`), already on the
fresh store. -/
theorem c6_nextTarget_panics_on_untracked_topic :
    nextTargetOpt 0 0 initialStore = none := by
  with_unfolding_all decide

/-- C6 (amended): `nextTarget` completes normally whenever the topic is
tracked and its radius is at least 2, and `ticketsInWindow` completes
normally whenever the topic is tracked; the remaining operations (`add`,
`fetch`, `getNodeTicket`, `adjustMinRadius`, `pongToTicket`) are total. -/
theorem c6_interface_totality :
    (∀ rnd topic st tt, alookup st.topics topic = some tt → 2 ≤ tt.radius →
      (nextTargetOpt rnd topic st).isSome = true) ∧
    (∀ now topic st, (alookup st.topics topic).isSome = true →
      (ticketsInWindowOpt now topic st).isSome = true) := by
  constructor
  · intro rnd topic st tt hl hr
    have h2 : tt.radius / 2 ≠ 0 := by
      have : 1 ≤ tt.radius / 2 := (Nat.le_div_iff_mul_le (by norm_num)).2 (by omega)
      omega
    simp [nextTargetOpt, hl, h2]
  · intro now topic st h
    rcases Option.isSome_iff_exists.1 h with ⟨tt, hl⟩
    simp [ticketsInWindowOpt, hl]

/-- C6 witness: on a store with topic 0 tracked, both operations return a
value. -/
theorem c6_interface_totality_witness :
    (nextTargetOpt 7 0 (addTopicOp 0 5 true initialStore)).isSome = true ∧
    (ticketsInWindowOpt 0 0 (addTopicOp 0 5 true initialStore)).isSome = true := by
  constructor
  · exact c6_interface_totality.1 7 0 _ (newtopicTickets 5 true) (by rfl) (by decide)
  · exact c6_interface_totality.2 0 0 _ (by rfl)

/-- Auxiliary: the per-entry round trip through `pongToTicket` then
`ticketToPong` in the int64-safe range. -/
theorem waitPeriod_roundtrip (localTime wp : Nat) (hw1 : wp < U32)
    (hw2 : localTime + wp * nsPerSec < I64Min) :
    u32ofI64 (Int.tdiv (i64ofU64 ((localTime + (wp % U32) * nsPerSec) % U64))
        (nsPerSec : Int))
      = (wp + localTime / nsPerSec) % U32 := by
  have hmod : wp % U32 = wp := Nat.mod_eq_of_lt hw1
  rw [hmod]
  have hlt64 : localTime + wp * nsPerSec < U64 :=
    lt_trans hw2 (by norm_num [I64Min, U64])
  rw [Nat.mod_eq_of_lt hlt64]
  have hi : i64ofU64 (localTime + wp * nsPerSec)
      = ((localTime + wp * nsPerSec : Nat) : Int) := by
    simp only [i64ofU64, Nat.mod_eq_of_lt hlt64, if_pos hw2]
    exact Int.emod_eq_of_lt (Int.natCast_nonneg _) (by exact_mod_cast hlt64)
  rw [hi, ← Int.ofNat_tdiv]
  have hdiv : (localTime + wp * nsPerSec) / nsPerSec = localTime / nsPerSec + wp :=
    Nat.add_mul_div_right localTime wp (by norm_num [nsPerSec])
  simp [u32ofI64, hdiv, U32]
  omega

/-- C3 (amended): for wait periods below 2^32 and local times keeping all
absolute register times below 2^63 (the int64-safe range), the round trip
`ticketToPong ∘ pongToTicket` yields `WaitPeriods[i] = (wp_i + localTime
in seconds) mod 2^32` — the absolute due time in seconds, not the original
relative wait period — and `Expiration = issueTime in seconds`; the
original wait periods are recovered exactly when `localTime` is below one
second. -/
theorem c3_pong_roundtrip (rlpH : List Nat → Nat) (localTime : Nat)
    (tps : List Nat) (node : NodeId) (wps rawData : List Nat)
    (hlt : localTime < I64Min)
    (hw : ∀ wp ∈ wps, wp < U32 ∧ localTime + wp * nsPerSec < I64Min) :
    (ticketToPong rlpH (pongToTicket localTime tps node wps rawData)).waitPeriods
      = wps.map (fun wp => (wp + localTime / nsPerSec) % U32) ∧
    (ticketToPong rlpH (pongToTicket localTime tps node wps rawData)).expiration
      = localTime / nsPerSec ∧
    (localTime < nsPerSec →
      (ticketToPong rlpH (pongToTicket localTime tps node wps rawData)).waitPeriods
        = wps) := by
  have hwp : (ticketToPong rlpH (pongToTicket localTime tps node wps
      rawData)).waitPeriods = wps.map (fun wp => (wp + localTime / nsPerSec) % U32) := by
    show (wps.map fun wp => (localTime + (wp % U32) * nsPerSec) % U64).map _ = _
    rw [List.map_map]
    apply List.map_congr_left
    intro wp hwp
    exact waitPeriod_roundtrip localTime wp (hw wp hwp).1 (hw wp hwp).2
  refine ⟨hwp, ?_, ?_⟩
  · show u64ofI64 (Int.tdiv (i64ofU64 (localTime % U64)) (nsPerSec : Int)) = _
    have hlt64 : localTime < U64 := lt_trans hlt (by norm_num [I64Min, U64])
    rw [Nat.mod_eq_of_lt hlt64]
    have hi : i64ofU64 localTime = (localTime : Int) := by
      simp only [i64ofU64, Nat.mod_eq_of_lt hlt64, if_pos hlt]
      exact Int.emod_eq_of_lt (Int.natCast_nonneg _) (by exact_mod_cast hlt64)
    rw [hi, ← Int.ofNat_tdiv]
    have hx : localTime / nsPerSec < U64 := by
      have := Nat.div_le_self localTime nsPerSec
      omega
    unfold u64ofI64
    rw [Int.emod_eq_of_lt (Int.natCast_nonneg _) (by exact_mod_cast hx)]
    exact Int.toNat_natCast _
  · intro hsec
    rw [hwp]
    have : ∀ wp ∈ wps, (wp + localTime / nsPerSec) % U32 = wp := by
      intro wp hwpm
      have h0 : localTime / nsPerSec = 0 := Nat.div_eq_of_lt hsec
      rw [h0, Nat.add_zero]
      exact Nat.mod_eq_of_lt (hw wp hwpm).1
    calc wps.map (fun wp => (wp + localTime / nsPerSec) % U32)
        = wps.map id := List.map_congr_left this
      _ = wps := List.map_id wps

/-- C3 witness for the amended round trip: local time 0.5s, wait periods
3s and 7s. -/
theorem c3_pong_roundtrip_witness :
    (ticketToPong (fun _ => 0)
        (pongToTicket 500000000 [0] ⟨0, 0⟩ [3, 7] [])).waitPeriods = [3, 7] :=
  (c3_pong_roundtrip (fun _ => 0) 500000000 [0] ⟨0, 0⟩ [3, 7] []
      (by norm_num [I64Min])
      (by intro wp hwp; fin_cases hwp <;> norm_num [U32, nsPerSec, I64Min])).2.2
    (by norm_num [nsPerSec])

theorem ratTrunc_eq_floor (q : ℚ) : ratTrunc q = (⌊q⌋).toNat := by
  rw [Rat.floor_def]
  rfl

theorem ratTrunc_le_of_le_cast {q : ℚ} {m : Nat} (h : q ≤ (m : ℚ)) :
    ratTrunc q ≤ m := by
  rw [ratTrunc_eq_floor]
  have h1 : ⌊q⌋ ≤ (m : Int) := by
    have h2 := Int.floor_le_floor h
    rwa [Int.floor_natCast] at h2
  omega

theorem convStep_radius (q : ℚ) (s : TopicState) :
    (convStep q s).radius = s.radius := by
  unfold convStep
  split_ifs <;> rfl

theorem convStep_timeB (q : ℚ) (s : TopicState) :
    (convStep q s).timeB = s.timeB := by
  unfold convStep
  split_ifs <;> rfl

theorem adjust_timeB (localTime regT minRad : Nat) (r : TopicState) :
    (adjust localTime regT minRad r).timeB = r.timeB := by
  unfold adjust
  dsimp only
  split_ifs <;> rw [convStep_timeB]

/-- The clamped control error of one `adjust` step in the form the spec
states it (`(wait / targetWaitTime - 1) * 2`, clamped to [-1, 1]); to be
compared with the sequential clamping the code performs. -/
def errSpec (localTime regT : Nat) : ℚ :=
  max (-1) (min 1 ((((u64sub regT localTime : Nat) : ℚ) / (targetWaitTime : ℚ) - 1) * 2))

/-- The learning rate of one `adjust` step (0.01 after convergence, 0.1
before). -/
def rateSpec (r : TopicState) : ℚ := if r.converged then 1 / 100 else 1 / 10

/-- The proposed radius `radius * (1 + error * rate)` of one `adjust`
step, in the spec's form. -/
def proposedRadiusSpec (localTime regT : Nat) (r : TopicState) : ℚ :=
  (r.radius : ℚ) * (1 + errSpec localTime regT * rateSpec r)

theorem clamp_chain_eq (a1 : ℚ) :
    (if (if 1 < a1 then (1 : ℚ) else a1) < -1 then (-1 : ℚ)
     else if 1 < a1 then (1 : ℚ) else a1) = max (-1) (min 1 a1) := by
  by_cases h1 : 1 < a1
  · simp only [if_pos h1]
    rw [if_neg (by norm_num), min_eq_left h1.le, max_eq_right (by norm_num : (-1 : ℚ) ≤ 1)]
  · simp only [if_neg h1]
    push_neg at h1
    rw [min_eq_right h1]
    by_cases h2 : a1 < -1
    · rw [if_pos h2, max_eq_left h2.le]
    · rw [if_neg h2, max_eq_right (not_lt.1 h2)]

theorem nat_if_lt_eq_max (a b : Nat) : (if a < b then b else a) = max a b := by
  split_ifs <;> omega

/-- `adjust` in terms of the spec-form proposed radius. -/
theorem adjust_eq_spec_form (localTime regT minRad : Nat) (r : TopicState) :
    adjust localTime regT minRad r
      = (if (maxRadius : ℚ) < proposedRadiusSpec localTime regT r
         then convStep (maxRadius : ℚ) { r with radius := maxRadius }
         else convStep (proposedRadiusSpec localTime regT r)
           { r with
             radius := max (ratTrunc (proposedRadiusSpec localTime regT r)) minRad }) := by
  unfold adjust proposedRadiusSpec errSpec rateSpec
  dsimp only
  rw [clamp_chain_eq, nat_if_lt_eq_max]
  by_cases hc : r.converged <;> simp only [hc, if_true, if_false, Bool.false_eq_true]

/-- C4: postcondition of `topicTickets.adjust`.  With
`wait = regTime - localTime` (wrapping 64-bit), error
`(wait / targetWaitTime - 1) * 2` clamped to [-1, 1], rate 0.01 when
converged and 0.1 otherwise, and proposed radius
`radius * (1 + error * rate)` over exact rationals, the new radius is
`maxRadius` when the proposed radius exceeds it and otherwise the
proposed radius truncated and then clamped up to `globalMinRadius`;
consequently `minRadius ≤ radius ≤ maxRadius` after every adjustment (the
hypothesis `minRad ≤ maxRadius` holds for every `uint64` value). -/
theorem c4_adjust_radius_postcondition (localTime regT minRad : Nat)
    (r : TopicState) (hmr : minRad ≤ maxRadius) :
    ((adjust localTime regT minRad r).radius
      = (if (maxRadius : ℚ) < proposedRadiusSpec localTime regT r then maxRadius
         else max (ratTrunc (proposedRadiusSpec localTime regT r)) minRad)) ∧
    minRad ≤ (adjust localTime regT minRad r).radius ∧
    (adjust localTime regT minRad r).radius ≤ maxRadius := by
  rw [adjust_eq_spec_form localTime regT minRad r]
  rcases lt_or_le (maxRadius : ℚ) (proposedRadiusSpec localTime regT r) with hb | hb
  · rw [if_pos hb, if_pos hb, convStep_radius]
    exact ⟨rfl, hmr, le_refl _⟩
  · rw [if_neg (not_lt.2 hb), if_neg (not_lt.2 hb), convStep_radius]
    dsimp only
    have htr : ratTrunc (proposedRadiusSpec localTime regT r) ≤ maxRadius :=
      ratTrunc_le_of_le_cast hb
    exact ⟨rfl, le_max_right _ _, by omega⟩

/-- C4 witness: a concrete adjustment (fresh topic state, wait exactly
`targetWaitTime`, minimum radius 3) lands between the bounds. -/
theorem c4_adjust_radius_postcondition_witness :
    3 ≤ (adjust 0 600000000000 3 (newtopicTickets 0 true)).radius ∧
    (adjust 0 600000000000 3 (newtopicTickets 0 true)).radius ≤ maxRadius :=
  ⟨(c4_adjust_radius_postcondition 0 600000000000 3 (newtopicTickets 0 true)
      (by norm_num [maxRadius])).2.1,
   (c4_adjust_radius_postcondition 0 600000000000 3 (newtopicTickets 0 true)
      (by norm_num [maxRadius])).2.2⟩

/-- The local float variable `radius` at the convergence check of
`adjust`: the proposed radius, clamped to `maxRadius` in the overflow
branch but not truncated and not clamped to `minRadius`. -/
def radFSpec (localTime regT : Nat) (r : TopicState) : ℚ :=
  if (maxRadius : ℚ) < proposedRadiusSpec localTime regT r then (maxRadius : ℚ)
  else proposedRadiusSpec localTime regT r

theorem convStep_of_converged (q : ℚ) (s : TopicState)
    (h : s.converged = true) : convStep q s = s := by
  unfold convStep
  rw [h]
  simp

theorem adjust_of_converged (localTime regT minRad : Nat) (r : TopicState)
    (h : r.converged = true) :
    (adjust localTime regT minRad r).converged = true ∧
    (adjust localTime regT minRad r).filteredRadius = r.filteredRadius := by
  rw [adjust_eq_spec_form]
  split_ifs <;> rw [convStep_of_converged _ _ (by simpa using h)] <;> exact ⟨h, rfl⟩

theorem adjust_converged_mono (localTime regT minRad : Nat) (r : TopicState)
    (h : r.converged = true) :
    (adjust localTime regT minRad r).converged = true :=
  (adjust_of_converged localTime regT minRad r h).1

theorem adjust_of_not_converged (localTime regT minRad : Nat) (r : TopicState)
    (h : r.converged = false) :
    ((adjust localTime regT minRad r).converged
      = decide (r.filteredRadius ≤ radFSpec localTime regT r)) ∧
    (r.filteredRadius ≤ radFSpec localTime regT r →
      (adjust localTime regT minRad r).filteredRadius = r.filteredRadius) ∧
    (¬ r.filteredRadius ≤ radFSpec localTime regT r →
      (adjust localTime regT minRad r).filteredRadius
        = r.filteredRadius
          + (radFSpec localTime regT r - r.filteredRadius) * (1 / 20)) := by
  rw [adjust_eq_spec_form]
  unfold radFSpec convStep
  dsimp only
  rw [h]
  simp only [eq_self_iff_true, if_true]
  split_ifs with hb hf hf <;>
    simp [hf, not_le.1, decide_eq_true_eq]

/-- What one slot of the `add` loop does to the topic map: every topic
entry is either untouched, or (at the processed topic, when the peer is
in radius) replaced by the `adjust`ed state, possibly with one TicketRef
appended to the bucket of `regTime[i] / ticketGroupTime`. -/
theorem addSlotStep_lookup_char (localTime minRad tid : Nat) (td : TicketData)
    (i topic key : Nat) (topics : List (Nat × TopicState)) (rnds : List ℚ)
    (inc : Nat) :
    (alookup (addSlotStep localTime minRad tid td i topic (topics, rnds, inc)).1 key
      = alookup topics key) ∨
    (key = topic ∧ ∃ tt, alookup topics key = some tt ∧
      ∃ tt2, alookup (addSlotStep localTime minRad tid td i topic
          (topics, rnds, inc)).1 key = some tt2 ∧
        tt2.converged = (adjust localTime (td.regTime.getD i 0) minRad tt).converged ∧
        tt2.radius = (adjust localTime (td.regTime.getD i 0) minRad tt).radius ∧
        (tt2.timeB = tt.timeB ∨
          ∃ tm, tt.timeB = some tm ∧
            tt2.timeB = some (ainsert tm (td.regTime.getD i 0 / ticketGroupTime)
              ((alookup tm (td.regTime.getD i 0 / ticketGroupTime)).getD []
                ++ [(tid, i)])))) := by
  by_cases hk : key = topic
  · subst hk
    rcases hl : alookup topics key with _ | tt
    · left
      unfold addSlotStep
      dsimp only
      simp only [hl]
    · by_cases hir : isInRadius tt td.node.pfx = true
      · right
        refine ⟨rfl, tt, rfl, ?_⟩
        unfold addSlotStep
        dsimp only
        simp only [hl, if_pos hir]
        rcases htc : (adjust localTime (td.regTime.getD i 0) minRad tt).converged with _ | _
        · simp only [htc, Bool.false_eq_true, if_false]
          refine ⟨_, alookup_ainsert_self ..,
            htc, rfl, Or.inl (adjust_timeB ..)⟩
        · simp only [htc, if_true]
          rcases htb : (adjust localTime (td.regTime.getD i 0) minRad tt).timeB with _ | tm
          · simp only []
            refine ⟨_, alookup_ainsert_self ..,
              htc, rfl, Or.inl (adjust_timeB ..)⟩
          · simp only []
            split_ifs
            all_goals first
              | (refine ⟨_, alookup_ainsert_self .., rfl, rfl, Or.inr ⟨tm, ?_, rfl⟩⟩
                 rw [← adjust_timeB localTime (td.regTime.getD i 0) minRad tt]
                 exact htb)
              | exact ⟨_, alookup_ainsert_self .., htc, rfl, Or.inl (adjust_timeB ..)⟩
      · left
        unfold addSlotStep
        dsimp only
        simp only [hl, if_neg hir]
  · left
    unfold addSlotStep
    dsimp only
    rcases hl : alookup topics topic with _ | tt
    · simp only [hl]
    · simp only [hl]
      by_cases hir : isInRadius tt td.node.pfx = true
      · simp only [if_pos hir]
        rcases htc : (adjust localTime (td.regTime.getD i 0) minRad tt).converged with _ | _
        · simp only [htc, Bool.false_eq_true, if_false, alookup_ainsert, if_neg hk]
        · simp only [htc, if_true]
          rcases htb : (adjust localTime (td.regTime.getD i 0) minRad tt).timeB with _ | tm
          · simp only [alookup_ainsert, if_neg hk]
          · simp only []
            split_ifs with hret <;> simp only [alookup_ainsert, if_neg hk]
      · simp only [if_neg hir]

theorem addSlotStep_converged_fwd (localTime minRad tid : Nat) (td : TicketData)
    (i topic key : Nat) (topics : List (Nat × TopicState)) (rnds : List ℚ)
    (inc : Nat) (tt : TopicState) (hl : alookup topics key = some tt)
    (hc : tt.converged = true) :
    ∃ tt2, alookup (addSlotStep localTime minRad tid td i topic
        (topics, rnds, inc)).1 key = some tt2 ∧ tt2.converged = true := by
  rcases addSlotStep_lookup_char localTime minRad tid td i topic key topics rnds inc
    with h | ⟨_, tt0, hl0, tt2, h2, hcv, _⟩
  · exact ⟨tt, by rw [h, hl], hc⟩
  · have he : tt0 = tt := by
      rw [hl0] at hl
      exact Option.some.inj hl
    refine ⟨tt2, h2, ?_⟩
    rw [hcv]
    exact adjust_converged_mono _ _ _ _ (he ▸ hc)

theorem addSlots_converged_fwd (localTime minRad tid : Nat) (td : TicketData)
    (key : Nat) :
    ∀ (tps : List Nat) (i : Nat) (topics : List (Nat × TopicState))
      (rnds : List ℚ) (inc : Nat) (tt : TopicState),
      alookup topics key = some tt → tt.converged = true →
      ∃ tt2, alookup (addSlots localTime minRad tid td i tps
          (topics, rnds, inc)).1 key = some tt2 ∧ tt2.converged = true := by
  intro tps
  induction tps with
  | nil => exact fun i topics rnds inc tt hl hc => ⟨tt, hl, hc⟩
  | cons topic rest ih =>
    intro i topics rnds inc tt hl hc
    obtain ⟨tt2, h2, hc2⟩ :=
      addSlotStep_converged_fwd localTime minRad tid td i topic key topics rnds inc tt hl hc
    simp only [addSlots]
    exact ih (i + 1) _ _ _ tt2 h2 hc2

theorem fetchTopics_converged_fwd (localTime ltGroup lgf : Nat) :
    ∀ (topics : List (Nat × TopicState)) (c : Core) (res : List Nat)
      (key : Nat) (tt : TopicState),
      alookup topics key = some tt →
      ∃ tt2, alookup (fetchTopics localTime ltGroup lgf topics c res).1 key
          = some tt2 ∧ tt2.converged = tt.converged := by
  intro topics
  induction topics with
  | nil =>
    intro c res key tt hl
    simp [alookup] at hl
  | cons hd rest ih =>
    obtain ⟨k, tt0⟩ := hd
    intro c res key tt hl
    by_cases hk : key = k
    · subst hk
      have he : tt = tt0 := by
        simp only [alookup, if_pos rfl] at hl
        exact (Option.some.inj hl).symm
      rcases htb : tt0.timeB with _ | tm
      · simp only [fetchTopics, htb]
        exact ⟨tt0, by simp [alookup], by rw [he]⟩
      · simp only [fetchTopics, htb]
        refine ⟨{ tt0 with timeB := some (fetchBuckets localTime ltGroup lgf (ltGroup + 1 - lgf) tm c res).1 }, ?_, by rw [he]⟩
        simp [alookup]
    · have hl' : alookup rest key = some tt := by
        simpa only [alookup, if_neg hk] using hl
      rcases htb : tt0.timeB with _ | tm <;>
        simp only [fetchTopics, htb]
      · obtain ⟨tt2, h2, hc2⟩ := ih c res key tt hl'
        exact ⟨tt2, by simpa only [alookup, if_neg hk] using h2, hc2⟩
      · obtain ⟨tt2, h2, hc2⟩ :=
          ih (fetchBuckets localTime ltGroup lgf (ltGroup + 1 - lgf) tm c res).2.1
            (fetchBuckets localTime ltGroup lgf (ltGroup + 1 - lgf) tm c res).2.2
            key tt hl'
        exact ⟨tt2, by simpa only [alookup, if_neg hk] using h2, hc2⟩

theorem newTicketOp_topics (tid : Nat) (tps rts : List Nat) (node : NodeId)
    (serial issueTime : Nat) (st : St) :
    (newTicketOp tid tps rts node serial issueTime st).topics = st.topics := by
  unfold newTicketOp
  split <;> rfl

theorem applyOp_converged_fwd (op : Op) (st : St) (topic : Nat) (tt : TopicState)
    (hl : alookup st.topics topic = some tt) (hc : tt.converged = true) :
    ∃ tt', alookup (applyOp op st).topics topic = some tt' ∧
      tt'.converged = true := by
  cases op with
  | addTopic t hp reg =>
    simp only [applyOp, addTopicOp]
    rcases h : alookup st.topics t with _ | x
    · have hne : topic ≠ t := fun he => by
        rw [he, h] at hl
        exact Option.noConfusion hl
      exact ⟨tt, by simp only [alookup_ainsert, if_neg hne]; exact hl, hc⟩
    · exact ⟨tt, hl, hc⟩
  | newTicket tid tps rts node ser it =>
    refine ⟨tt, ?_, hc⟩
    rw [show (applyOp (Op.newTicket tid tps rts node ser it) st).topics = st.topics
      from newTicketOp_topics ..]
    exact hl
  | add lt tid rnds =>
    simp only [applyOp, addOp]
    rcases h : alookup st.core.heap tid with _ | td
    · exact ⟨tt, hl, hc⟩
    · by_cases hn : (alookup st.core.nodes td.node).isSome
      · simp only [hn, if_true]
        exact ⟨tt, hl, hc⟩
      · simp only [hn, Bool.false_eq_true, if_false]
        exact addSlots_converged_fwd lt st.minRadius tid td topic
          td.topics 0 st.topics rnds 0 tt hl hc
  | fetch lt =>
    simp only [applyOp, fetchOp]
    obtain ⟨tt2, h2, hc2⟩ :=
      fetchTopics_converged_fwd lt (lt / ticketGroupTime) st.lastGroupFetched
        st.topics st.core [] topic tt hl
    exact ⟨tt2, h2, by rw [hc2]; exact hc⟩
  | adjMinR tp fp => exact ⟨tt, hl, hc⟩

theorem runOps_converged_fwd :
    ∀ (ops : List Op) (st : St) (topic : Nat) (tt : TopicState),
      alookup st.topics topic = some tt → tt.converged = true →
      ∃ tt', alookup (runOps ops st).topics topic = some tt' ∧
        tt'.converged = true := by
  intro ops
  induction ops with
  | nil => exact fun st topic tt hl hc => ⟨tt, hl, hc⟩
  | cons op rest ih =>
    intro st topic tt hl hc
    obtain ⟨tt', h', hc'⟩ := applyOp_converged_fwd op st topic tt hl hc
    exact ih (applyOp op st) topic tt' h' hc'

/-- C5: convergence detection and monotonicity.  `converged` starts
false; while not converged, one `adjust` call sets it exactly when the
new (float) radius has reached `filteredRadius` and otherwise updates
`filteredRadius` as an exponential moving average with factor 0.05 of the
new radius; once converged it never resets, under any sequence of store
operations. -/
theorem c5_convergence_detection :
    (∀ hp reg, (newtopicTickets hp reg).converged = false) ∧
    (∀ localTime regT minRad r, r.converged = true →
      (adjust localTime regT minRad r).converged = true ∧
      (adjust localTime regT minRad r).filteredRadius = r.filteredRadius) ∧
    (∀ localTime regT minRad r, r.converged = false →
      ((adjust localTime regT minRad r).converged
        = decide (r.filteredRadius ≤ radFSpec localTime regT r)) ∧
      (r.filteredRadius ≤ radFSpec localTime regT r →
        (adjust localTime regT minRad r).filteredRadius = r.filteredRadius) ∧
      (¬ r.filteredRadius ≤ radFSpec localTime regT r →
        (adjust localTime regT minRad r).filteredRadius
          = r.filteredRadius
            + (radFSpec localTime regT r - r.filteredRadius) * (1 / 20))) ∧
    (∀ ops st topic tt tt', alookup st.topics topic = some tt →
      tt.converged = true →
      alookup (runOps ops st).topics topic = some tt' →
      tt'.converged = true) := by
  refine ⟨fun hp reg => rfl, adjust_of_converged, adjust_of_not_converged, ?_⟩
  intro ops st topic tt tt' hl hc hl'
  obtain ⟨tt2, h2, hc2⟩ := runOps_converged_fwd ops st topic tt hl hc
  rw [h2] at hl'
  rw [← Option.some.inj hl']
  exact hc2

/-- C5 witness: an already-converged topic state stays converged through
`adjust`. -/
theorem c5_convergence_detection_witness :
    (adjust 0 0 0 { newtopicTickets 0 true with converged := true }).converged
      = true :=
  (c5_convergence_detection.2.1 0 0 0
    { newtopicTickets 0 true with converged := true } rfl).1

set_option maxHeartbeats 1000000 in
/-- C10: an already-expired slot is never scheduled.  When
`regTime[i] < localTime`, the unsigned `wait = regTime[i] - localTime`
wraps; as long as the true gap stays below
`2^64 - (keepTicketConst + 10 * keepTicketExp)`, the wrapped value
exceeds every possible retention threshold (the exponential draw is
nonnegative and capped at 10), so the slot appends no TicketRef to any
bucket and performs no `refCnt` increment. -/
theorem c10_expired_slot_not_scheduled (localTime minRad tid i topic : Nat)
    (td : TicketData) (topics : List (Nat × TopicState)) (rnds : List ℚ)
    (inc : Nat)
    (hrt : td.regTime.getD i 0 < U64) (hlt : localTime < U64)
    (hexp : td.regTime.getD i 0 < localTime)
    (hgap : localTime - td.regTime.getD i 0
      < U64 - (keepTicketConst + 10 * keepTicketExp))
    (hrnds : ∀ q ∈ rnds, (0 : ℚ) ≤ q) :
    (addSlotStep localTime minRad tid td i topic (topics, rnds, inc)).2.2 = inc ∧
    ∀ key,
      (alookup (addSlotStep localTime minRad tid td i topic
          (topics, rnds, inc)).1 key).map TopicState.timeB
        = (alookup topics key).map TopicState.timeB := by
  have h0 : (0 : ℚ) ≤ rnds.headD 0 := by
    cases rnds with
    | nil => simp
    | cons q t => exact hrnds q (List.mem_cons_self q t)
  have hwn : keepTicketConst + keepTicketExp * 10
      < u64sub (td.regTime.getD i 0) localTime := by
    unfold u64sub
    simp only [U64, keepTicketConst, keepTicketExp] at hgap hrt hlt ⊢
    omega
  have hnot : ¬ ((u64sub (td.regTime.getD i 0) localTime : ℚ) <
      (keepTicketConst : ℚ) + (keepTicketExp : ℚ) *
        (if (10 : ℚ) < rnds.headD 0 then 10 else rnds.headD 0)) := by
    push_neg
    have hr : (if (10 : ℚ) < rnds.headD 0 then (10 : ℚ) else rnds.headD 0) ≤ 10 := by
      split_ifs with h
      · exact le_refl 10
      · exact le_of_not_lt h
    calc (keepTicketConst : ℚ) + (keepTicketExp : ℚ) *
          (if (10 : ℚ) < rnds.headD 0 then (10 : ℚ) else rnds.headD 0)
        ≤ (keepTicketConst : ℚ) + (keepTicketExp : ℚ) * 10 := by
          have : (0 : ℚ) ≤ (keepTicketExp : ℚ) := by positivity
          nlinarith
      _ ≤ ((u64sub (td.regTime.getD i 0) localTime : Nat) : ℚ) := by
          exact_mod_cast hwn.le
  unfold addSlotStep
  dsimp only
  rcases hl : alookup topics topic with _ | tt
  · simp [hl]
  · simp only [hl]
    by_cases hir : isInRadius tt td.node.pfx = true
    · simp only [if_pos hir]
      have htB := adjust_timeB localTime (td.regTime.getD i 0) minRad tt
      rcases htc : (adjust localTime (td.regTime.getD i 0) minRad tt).converged with _ | _
      · simp only [htc, Bool.false_eq_true, if_false]
        refine ⟨by trivial, fun key => ?_⟩
        by_cases hk : key = topic
        · subst hk
          simp [alookup_ainsert_self, hl]
          exact adjust_timeB ..
        · simp only [alookup_ainsert, if_neg hk]
      · simp only [htc, if_true]
        rcases htb : (adjust localTime (td.regTime.getD i 0) minRad tt).timeB
          with _ | tm
        · simp only []
          refine ⟨by trivial, fun key => ?_⟩
          by_cases hk : key = topic
          · subst hk
            simp [alookup_ainsert_self, hl]
            exact adjust_timeB ..
          · simp only [alookup_ainsert, if_neg hk]
        · simp only []
          rw [if_neg hnot]
          refine ⟨by trivial, fun key => ?_⟩
          by_cases hk : key = topic
          · subst hk
            simp [alookup_ainsert_self, hl]
            exact adjust_timeB ..
          · simp only [alookup_ainsert, if_neg hk]
    · simp [hir]

/-- C10 witness: local time just past the gap bound with `regTime 0`
(maximal wrap), one draw of 0: the slot is not scheduled. -/
theorem c10_expired_slot_not_scheduled_witness :
    (addSlotStep 2400000000001 0 0
        { topics := [0], regTime := [0], serial := 0, issueTime := 0,
          node := ⟨0, 0⟩, refCnt := 0, pong := [] } 0 0
        ([(0, newtopicTickets 0 true)], [0], 5)).2.2 = 5 :=
  (c10_expired_slot_not_scheduled 2400000000001 0 0 0 0
    { topics := [0], regTime := [0], serial := 0, issueTime := 0,
      node := ⟨0, 0⟩, refCnt := 0, pong := [] }
    [(0, newtopicTickets 0 true)] [0] 5
    (by norm_num [U64]) (by norm_num [U64]) (by norm_num)
    (by norm_num [U64, keepTicketConst, keepTicketExp])
    (by intro q hq; fin_cases hq; norm_num)).1

/-- The raw sample of `adjustMinRadius`: 16 times the XOR of the two
64-bit prefixes, capped at `maxRadius / 2` (exact rationals). -/
def minRadSample (tp fp : Nat) : ℚ :=
  if (maxRadius : ℚ) / 2 < ((Nat.xor (tp % U64) (fp % U64) : Nat) : ℚ) * 16
  then (maxRadius : ℚ) / 2
  else ((Nat.xor (tp % U64) (fp % U64) : Nat) : ℚ) * 16

theorem ratTrunc_natCast (n : Nat) : ratTrunc ((n : Nat) : ℚ) = n := by
  rw [ratTrunc_eq_floor, Int.floor_natCast]
  exact Int.toNat_natCast n

theorem adjustMinRadiusOp_below_cap (tp fp : Nat) (st : St)
    (h : st.minRadCnt < minRadAverage) :
    (adjustMinRadiusOp tp fp st).minRadCnt = st.minRadCnt + 1 ∧
    (adjustMinRadiusOp tp fp st).minRadSum
      = st.minRadSum + minRadSample tp fp := by
  unfold adjustMinRadiusOp minRadSample
  simp only [if_pos h]
  exact ⟨by trivial, by trivial⟩

theorem adjustMinRadiusOp_at_cap (tp fp : Nat) (st : St)
    (h : ¬ st.minRadCnt < minRadAverage) :
    (adjustMinRadiusOp tp fp st).minRadCnt = st.minRadCnt ∧
    (adjustMinRadiusOp tp fp st).minRadSum
      = st.minRadSum - st.minRadSum / (minRadAverage : ℚ)
        + minRadSample tp fp := by
  unfold adjustMinRadiusOp minRadSample
  simp only [if_neg h]
  exact ⟨by trivial, by trivial⟩

theorem adjustMinRadiusOp_iterate_same (tp fp : Nat)
    (hd : ((Nat.xor (tp % U64) (fp % U64) : Nat) : ℚ) * 16 ≤ (maxRadius : ℚ) / 2) :
    ∀ n, n ≤ minRadAverage →
      ((adjustMinRadiusOp tp fp)^[n] initialStore).minRadCnt = n ∧
      ((adjustMinRadiusOp tp fp)^[n] initialStore).minRadSum
        = (n : ℚ) * (((Nat.xor (tp % U64) (fp % U64) : Nat) : ℚ) * 16) ∧
      ((adjustMinRadiusOp tp fp)^[n] initialStore).topics = [] := by
  intro n
  induction n with
  | zero => intro _; exact ⟨rfl, by simp [initialStore], rfl⟩
  | succ k ih =>
    intro hk
    obtain ⟨hc, hs, htp⟩ := ih (Nat.le_of_succ_le hk)
    have hlt : ((adjustMinRadiusOp tp fp)^[k] initialStore).minRadCnt
        < minRadAverage := by omega
    rw [Function.iterate_succ_apply']
    obtain ⟨h1, h2⟩ := adjustMinRadiusOp_below_cap tp fp _ hlt
    refine ⟨by rw [h1, hc], ?_, ?_⟩
    · rw [h2, hs]
      have hsample : minRadSample tp fp
          = ((Nat.xor (tp % U64) (fp % U64) : Nat) : ℚ) * 16 := by
        unfold minRadSample
        rw [if_neg (not_lt.2 hd)]
      rw [hsample]
      push_cast
      ring
    · show (adjustMinRadiusOp tp fp ((adjustMinRadiusOp tp fp)^[k] initialStore)).topics = []
      rw [show ∀ st : St, (adjustMinRadiusOp tp fp st).topics = st.topics
        from fun st => rfl]
      exact htp

/-- C8: the global minimum-radius estimator.  Each call computes the
sample `min(16 * xor-prefix-distance, maxRadius/2)`; below the
1024-sample cap the count increments and the sample is added, at the cap
the sum first decays by 1/1024; `minRadius` is the truncated average.  In
particular `n` equal-distance samples (1 ≤ n ≤ 1024, `16*d` under the
cap) drive `minRadius` to exactly `16*d`. -/
theorem c8_adjustMinRadius (tp fp n : Nat)
    (hn1 : 1 ≤ n) (hn2 : n ≤ minRadAverage)
    (hd : ((Nat.xor (tp % U64) (fp % U64) : Nat) : ℚ) * 16 ≤ (maxRadius : ℚ) / 2) :
    ((adjustMinRadiusOp tp fp)^[n] initialStore).minRadius
      = 16 * Nat.xor (tp % U64) (fp % U64) ∧
    (∀ st : St, st.minRadCnt < minRadAverage →
      (adjustMinRadiusOp tp fp st).minRadCnt = st.minRadCnt + 1 ∧
      (adjustMinRadiusOp tp fp st).minRadSum
        = st.minRadSum + minRadSample tp fp) ∧
    (∀ st : St, minRadAverage ≤ st.minRadCnt →
      (adjustMinRadiusOp tp fp st).minRadCnt = st.minRadCnt ∧
      (adjustMinRadiusOp tp fp st).minRadSum
        = st.minRadSum - st.minRadSum / (minRadAverage : ℚ)
          + minRadSample tp fp) := by
  refine ⟨?_, fun st h => adjustMinRadiusOp_below_cap tp fp st h,
    fun st h => adjustMinRadiusOp_at_cap tp fp st (not_lt.2 h)⟩
  rcases n with _ | k
  · omega
  · obtain ⟨hc, hs, _⟩ := adjustMinRadiusOp_iterate_same tp fp hd k
      (Nat.le_of_succ_le hn2)
    have hlt : ((adjustMinRadiusOp tp fp)^[k] initialStore).minRadCnt
        < minRadAverage := by omega
    rw [Function.iterate_succ_apply']
    obtain ⟨h1, h2⟩ := adjustMinRadiusOp_below_cap tp fp _ hlt
    have hmr : (adjustMinRadiusOp tp fp ((adjustMinRadiusOp tp fp)^[k]
        initialStore)).minRadius
        = ratTrunc ((adjustMinRadiusOp tp fp ((adjustMinRadiusOp tp fp)^[k]
            initialStore)).minRadSum
          / ((adjustMinRadiusOp tp fp ((adjustMinRadiusOp tp fp)^[k]
            initialStore)).minRadCnt : ℚ)) := by
      unfold adjustMinRadiusOp
      split_ifs <;> rfl
    rw [hmr, h1, h2, hc, hs]
    have hsample : minRadSample tp fp
        = ((Nat.xor (tp % U64) (fp % U64) : Nat) : ℚ) * 16 := by
      unfold minRadSample
      rw [if_neg (not_lt.2 hd)]
    rw [hsample]
    have hkq : ((k : ℚ) + 1) ≠ 0 := by positivity
    have hdiv : ((k : ℚ) * (((Nat.xor (tp % U64) (fp % U64) : Nat) : ℚ) * 16)
          + ((Nat.xor (tp % U64) (fp % U64) : Nat) : ℚ) * 16)
          / (((k + 1 : Nat) : Nat) : ℚ)
        = ((16 * Nat.xor (tp % U64) (fp % U64) : Nat) : ℚ) := by
      push_cast
      field_simp
      ring
    rw [hdiv, ratTrunc_natCast]

/-- C8 witness: two samples at prefix distance 1 give `minRadius = 16`. -/
theorem c8_adjustMinRadius_witness :
    ((adjustMinRadiusOp 0 1)^[2] initialStore).minRadius = 16 := by
  have hx : Nat.xor (0 % U64) (1 % U64) = 1 := by decide
  have h := (c8_adjustMinRadius 0 1 2 (by norm_num)
    (by norm_num [minRadAverage])
    (by rw [hx]; norm_num [maxRadius])).1
  rw [h, hx]

/-- The refcount/index coupling invariant on the shared object graph:
`nodes` keys are unique, every `nodes` entry points to a live ticket of
matching NodeID with positive refcount, and every positive-refcount
ticket is indexed under its NodeID. -/
def CoreInv (c : Core) : Prop :=
  (c.nodes.map Prod.fst).Nodup ∧
  (∀ n tid, alookup c.nodes n = some tid →
    ∃ td, alookup c.heap tid = some td ∧ td.node = n ∧ 0 < td.refCnt) ∧
  (∀ tid td, alookup c.heap tid = some td → 0 < td.refCnt →
    alookup c.nodes td.node = some tid)

theorem coreInv_dec (c : Core) (tid : Nat) (td : TicketData)
    (hl : alookup c.heap tid = some td) (h : CoreInv c) :
    CoreInv { heap := ainsert c.heap tid { td with refCnt := td.refCnt - 1 },
              nodes := if td.refCnt - 1 = 0 then aerase c.nodes td.node
                       else c.nodes } := by
  obtain ⟨hnd, hcons, hpos⟩ := h
  refine ⟨?_, ?_, ?_⟩
  · split_ifs
    · exact nodup_keys_aerase _ _ hnd
    · exact hnd
  · intro n tid' hn
    split_ifs at hn with hz
    · by_cases hnn : n = td.node
      · rw [hnn, alookup_aerase_self _ _ hnd] at hn
        exact Option.noConfusion hn
      · rw [alookup_aerase_ne _ _ _ hnn] at hn
        obtain ⟨td', hh, hnode, hp⟩ := hcons n tid' hn
        have htid : tid' ≠ tid := by
          intro he
          rw [he, hl] at hh
          rw [← Option.some.inj hh] at hnode
          exact hnn hnode.symm
        exact ⟨td', by rwa [alookup_ainsert, if_neg htid], hnode, hp⟩
    · obtain ⟨td', hh, hnode, hp⟩ := hcons n tid' hn
      by_cases htid : tid' = tid
      · rw [htid] at hh ⊢
        rw [hl] at hh
        have he : td' = td := (Option.some.inj hh).symm
        rw [he] at hnode hp
        refine ⟨{ td with refCnt := td.refCnt - 1 },
          by rw [alookup_ainsert, if_pos rfl], hnode, ?_⟩
        show 0 < td.refCnt - 1
        omega
      · exact ⟨td', by rwa [alookup_ainsert, if_neg htid], hnode, hp⟩
  · intro tid' td' hh hp
    by_cases htid : tid' = tid
    · rw [htid] at hh ⊢
      rw [alookup_ainsert, if_pos rfl] at hh
      have he : td' = { td with refCnt := td.refCnt - 1 } :=
        (Option.some.inj hh).symm
      rw [he] at hp ⊢
      have hp' : 0 < td.refCnt - 1 := hp
      rw [if_neg (by omega : ¬ td.refCnt - 1 = 0)]
      have h1 : 0 < td.refCnt := by omega
      show alookup c.nodes ({ td with refCnt := td.refCnt - 1 }).node = some tid
      exact hpos tid td hl h1
    · rw [alookup_ainsert, if_neg htid] at hh
      have hold := hpos tid' td' hh hp
      split_ifs with hz
      · by_cases hnn : td'.node = td.node
        · have h1 : 0 < td.refCnt := by omega
          have h2 := hpos tid td hl h1
          rw [hnn] at hold
          rw [hold] at h2
          exact absurd (Option.some.inj h2) htid
        · rwa [alookup_aerase_ne _ _ _ hnn]
      · exact hold

theorem scanBucket_inv (localTime : Nat) :
    ∀ (rest kept beyond : List Ref) (c : Core) (res : List Nat),
      CoreInv c →
      CoreInv (scanBucket localTime rest kept beyond c res).2.1 := by
  intro rest
  induction rest with
  | nil => exact fun kept beyond c res h => h
  | cons r rs ih =>
    intro kept beyond c res h
    unfold scanBucket
    rcases hl : alookup c.heap r.1 with _ | td
    · simp only [hl]
      exact ih _ _ _ _ h
    · simp only [hl]
      by_cases hdue : td.regTime.getD r.2 0 ≤ localTime
      · rw [if_pos hdue]
        exact ih _ _ _ _ (coreInv_dec c r.1 td hl h)
      · rw [if_neg hdue]
        exact ih _ _ _ _ h

theorem fetchBuckets_inv (localTime ltGroup : Nat) :
    ∀ (fuel g : Nat) (tm : List (Nat × List Ref)) (c : Core) (res : List Nat),
      CoreInv c →
      CoreInv (fetchBuckets localTime ltGroup g fuel tm c res).2.1 := by
  intro fuel
  induction fuel with
  | zero => exact fun g tm c res h => h
  | succ f ih =>
    intro g tm c res h
    unfold fetchBuckets
    rcases hl : alookup tm g with _ | lst
    · simp only [hl]
      exact ih _ _ _ _ h
    · simp only [hl]
      exact ih _ _ _ _ (scanBucket_inv localTime lst [] [] c res h)

theorem fetchTopics_inv (localTime ltGroup lgf : Nat) :
    ∀ (topics : List (Nat × TopicState)) (c : Core) (res : List Nat),
      CoreInv c →
      CoreInv (fetchTopics localTime ltGroup lgf topics c res).2.1 := by
  intro topics
  induction topics with
  | nil => exact fun c res h => h
  | cons hd rest ih =>
    obtain ⟨k, tt⟩ := hd
    intro c res h
    rcases htb : tt.timeB with _ | tm <;> simp only [fetchTopics, htb]
    · exact ih c res h
    · exact ih _ _ (fetchBuckets_inv localTime ltGroup (ltGroup + 1 - lgf) lgf
        tm c res h)

theorem coreInv_add (c : Core) (tid : Nat) (td : TicketData) (inc : Nat)
    (hl : alookup c.heap tid = some td)
    (hn : alookup c.nodes td.node = none) (h : CoreInv c) :
    CoreInv { heap := ainsert c.heap tid { td with refCnt := td.refCnt + inc },
              nodes := if 0 < td.refCnt + (inc : Int)
                       then ainsert c.nodes td.node tid else c.nodes } := by
  obtain ⟨hnd, hcons, hpos⟩ := h
  refine ⟨?_, ?_, ?_⟩
  · split_ifs
    · exact nodup_keys_ainsert _ _ _ hnd
    · exact hnd
  · intro n tid' hnn
    split_ifs at hnn with hz
    · rw [alookup_ainsert] at hnn
      by_cases hne : n = td.node
      · rw [if_pos hne] at hnn
        have he : tid' = tid := (Option.some.inj hnn).symm
        rw [he, hne]
        exact ⟨{ td with refCnt := td.refCnt + inc },
          by rw [alookup_ainsert, if_pos rfl], rfl, hz⟩
      · rw [if_neg hne] at hnn
        obtain ⟨td', hh, hnode, hp⟩ := hcons n tid' hnn
        have htid : tid' ≠ tid := by
          intro he
          rw [he, hl] at hh
          have := (Option.some.inj hh).symm
          rw [this] at hnode
          exact hne hnode.symm
        exact ⟨td', by rwa [alookup_ainsert, if_neg htid], hnode, hp⟩
    · obtain ⟨td', hh, hnode, hp⟩ := hcons n tid' hnn
      have htid : tid' ≠ tid := by
        intro he
        rw [he, hl] at hh
        have hee : td' = td := (Option.some.inj hh).symm
        rw [hee] at hp
        have hcontra := hpos tid td hl hp
        rw [hn] at hcontra
        exact Option.noConfusion hcontra
      exact ⟨td', by rwa [alookup_ainsert, if_neg htid], hnode, hp⟩
  · intro tid' td' hh hp
    by_cases htid : tid' = tid
    · rw [htid] at hh ⊢
      rw [alookup_ainsert, if_pos rfl] at hh
      have he : td' = { td with refCnt := td.refCnt + inc } :=
        (Option.some.inj hh).symm
      rw [he] at hp ⊢
      have hp' : 0 < td.refCnt + (inc : Int) := hp
      rw [if_pos hp']
      show alookup (ainsert c.nodes td.node tid)
        ({ td with refCnt := td.refCnt + inc }).node = some tid
      exact alookup_ainsert_self ..
    · rw [alookup_ainsert, if_neg htid] at hh
      have hold := hpos tid' td' hh hp
      split_ifs with hz
      · by_cases hne : td'.node = td.node
        · rw [hne] at hold
          rw [hn] at hold
          exact Option.noConfusion hold
        · rwa [alookup_ainsert, if_neg hne]
      · exact hold

theorem coreInv_newTicket (c : Core) (tid : Nat) (td : TicketData)
    (hl : alookup c.heap tid = none) (h : CoreInv c)
    (hz : td.refCnt = 0) :
    CoreInv { heap := ainsert c.heap tid td, nodes := c.nodes } := by
  obtain ⟨hnd, hcons, hpos⟩ := h
  refine ⟨hnd, ?_, ?_⟩
  · intro n tid' hnn
    obtain ⟨td', hh, hnode, hp⟩ := hcons n tid' hnn
    have htid : tid' ≠ tid := by
      intro he
      rw [he, hl] at hh
      exact Option.noConfusion hh
    exact ⟨td', by rwa [alookup_ainsert, if_neg htid], hnode, hp⟩
  · intro tid' td' hh hp
    by_cases htid : tid' = tid
    · rw [htid, alookup_ainsert, if_pos rfl] at hh
      have he : td' = td := (Option.some.inj hh).symm
      rw [he, hz] at hp
      exact absurd hp (by norm_num)
    · rw [alookup_ainsert, if_neg htid] at hh
      exact hpos tid' td' hh hp

theorem addOp_core (localTime tid : Nat) (rnds : List ℚ) (st : St)
    (h : CoreInv st.core) : CoreInv (addOp localTime tid rnds st).core := by
  unfold addOp
  rcases hl : alookup st.core.heap tid with _ | td
  · simp only [hl]
    exact h
  · simp only [hl]
    rcases hn : alookup st.core.nodes td.node with _ | x
    · simp only [hn, Option.isSome_none, Bool.false_eq_true, if_false]
      exact coreInv_add st.core tid td _ hl hn h
    · simp only [hn, Option.isSome_some, if_true]
      exact h

theorem newTicketOp_core (tid : Nat) (tps rts : List Nat) (node : NodeId)
    (serial issueTime : Nat) (st : St) (h : CoreInv st.core) :
    CoreInv (newTicketOp tid tps rts node serial issueTime st).core := by
  unfold newTicketOp
  rcases hl : alookup st.core.heap tid with _ | td
  · simp only [hl]
    exact coreInv_newTicket st.core tid _ hl h rfl
  · simp only [hl]
    exact h

theorem applyOp_core (op : Op) (st : St) (h : CoreInv st.core) :
    CoreInv (applyOp op st).core := by
  cases op with
  | addTopic t hp reg =>
    simp only [applyOp, addTopicOp]
    rcases hl : alookup st.topics t with _ | x
    · exact h
    · exact h
  | newTicket tid tps rts node ser it => exact newTicketOp_core _ _ _ _ _ _ _ h
  | add lt tid rnds => exact addOp_core _ _ _ _ h
  | fetch lt => exact fetchTopics_inv _ _ _ st.topics st.core [] h
  | adjMinR tp fp => exact h

theorem runOps_core (ops : List Op) :
    ∀ st : St, CoreInv st.core → CoreInv (runOps ops st).core := by
  induction ops with
  | nil => exact fun st h => h
  | cons op rest ih => exact fun st h => ih (applyOp op st) (applyOp_core op st h)

theorem initialStore_core : CoreInv initialStore.core := by
  refine ⟨List.nodup_nil, ?_, ?_⟩
  · intro n tid h
    exact Option.noConfusion h
  · intro tid td h
    exact Option.noConfusion h

/-- C2: refcount/index consistency.  After any sequence of operations on
a fresh store, a ticket is reachable from the NodeID index exactly when
its reference count is positive. -/
theorem c2_refcount_index_consistency (ops : List Op) (tid : Nat)
    (td : TicketData)
    (hh : alookup (runOps ops initialStore).core.heap tid = some td) :
    alookup (runOps ops initialStore).core.nodes td.node = some tid
      ↔ 0 < td.refCnt := by
  obtain ⟨_, hcons, hpos⟩ := runOps_core ops initialStore initialStore_core
  constructor
  · intro hn
    obtain ⟨td', hh', _, hp⟩ := hcons td.node tid hn
    rw [hh] at hh'
    rw [← Option.some.inj hh'] at hp
    exact hp
  · exact hpos tid td hh

/-- C2 witness: a freshly allocated ticket has refcount 0 and is absent
from the NodeID index. -/
theorem c2_refcount_index_consistency_witness :
    ¬ (0 : Int) < 0 ∧
    ¬ alookup (runOps [Op.newTicket 0 [0] [5] ⟨0, 0⟩ 0 0]
        initialStore).core.nodes (⟨0, 0⟩ : NodeId) = some 0 := by
  constructor
  · norm_num
  · intro hmem
    exact absurd ((c2_refcount_index_consistency
        [Op.newTicket 0 [0] [5] ⟨0, 0⟩ 0 0] 0
        { topics := [0], regTime := [5], serial := 0, issueTime := 0,
          node := ⟨0, 0⟩, refCnt := 0, pong := [] } (by rfl)).1 hmem)
      (by norm_num)

/-- C7: a duplicate peer is an atomic no-op (the whole store is returned
unchanged when the NodeID index already holds a ticket for the incoming
ticket's registrar), and consequently the NodeID index never holds two
entries for one NodeID. -/
theorem c7_duplicate_peer_noop :
    (∀ localTime tid rnds st td,
      alookup st.core.heap tid = some td →
      (alookup st.core.nodes td.node).isSome = true →
      addOp localTime tid rnds st = st) ∧
    (∀ ops, ((runOps ops initialStore).core.nodes.map Prod.fst).Nodup) := by
  constructor
  · intro localTime tid rnds st td hl hn
    unfold addOp
    simp only [hl, hn, if_true]
  · intro ops
    exact (runOps_core ops initialStore initialStore_core).1

/-- A one-ticket store whose NodeID index already holds ticket 0 for
NodeID (0,0); used to witness the duplicate-peer no-op. -/
def c7Ticket : TicketData :=
  { topics := [0], regTime := [5], serial := 0, issueTime := 0,
    node := ⟨0, 0⟩, refCnt := 1, pong := [] }

/-- The store retaining `c7Ticket`. -/
def c7Store : St :=
  { topics := [],
    core := { heap := [(0, c7Ticket)], nodes := [(⟨0, 0⟩, 0)] },
    lastGroupFetched := 1, minRadSum := 0, minRadCnt := 0, minRadius := 0 }

/-- C7 witness: adding a ticket for an already-retained NodeID leaves
the store unchanged. -/
theorem c7_duplicate_peer_noop_witness : addOp 7 0 [] c7Store = c7Store :=
  c7_duplicate_peer_noop.1 7 0 [] c7Store c7Ticket rfl rfl

theorem mem_of_alookup {κ α : Type} [DecidableEq κ] (m : List (κ × α)) (k : κ)
    (v : α) (h : alookup m k = some v) : (k, v) ∈ m := by
  induction m with
  | nil => exact Option.noConfusion h
  | cons hd t ih =>
    obtain ⟨k₀, v₀⟩ := hd
    by_cases h₀ : k = k₀
    · rw [alookup, if_pos h₀] at h
      rw [h₀, ← Option.some.inj h]
      exact List.mem_cons_self _ _
    · rw [alookup, if_neg h₀] at h
      exact List.mem_cons_of_mem _ (ih h)

theorem mem_ainsert {κ α : Type} [DecidableEq κ] (m : List (κ × α)) (k : κ)
    (v : α) (p : κ × α) (h : p ∈ ainsert m k v) : p = (k, v) ∨ p ∈ m := by
  induction m with
  | nil =>
    rw [ainsert] at h
    exact Or.inl (List.mem_singleton.1 h)
  | cons hd t ih =>
    obtain ⟨k₀, v₀⟩ := hd
    by_cases h₀ : k₀ = k
    · rw [ainsert, if_pos h₀] at h
      rcases List.mem_cons.1 h with h | h
      · exact Or.inl h
      · exact Or.inr (List.mem_cons_of_mem _ h)
    · rw [ainsert, if_neg h₀] at h
      rcases List.mem_cons.1 h with h | h
      · exact Or.inr (h ▸ List.mem_cons_self _ _)
      · rcases ih h with h | h
        · exact Or.inl h
        · exact Or.inr (List.mem_cons_of_mem _ h)

theorem isSome_alookup_aerase {κ α : Type} [DecidableEq κ]
    (m : List (κ × α)) (g k : κ)
    (h : (alookup (aerase m g) k).isSome = true) :
    (alookup m k).isSome = true := by
  induction m with
  | nil => simpa [aerase, alookup] using h
  | cons hd t ih =>
    obtain ⟨k₀, v₀⟩ := hd
    by_cases h₀ : k₀ = g
    · rw [aerase, if_pos h₀] at h
      by_cases hk : k = k₀
      · simp [alookup, hk]
      · rw [alookup, if_neg hk]
        -- k ≠ k₀: the erased head cannot be the found entry
        rcases hx : alookup t k with _ | v
        · -- need contradiction with h
          have : (alookup t k).isSome = true := h
          rw [hx] at this
          exact Bool.noConfusion this
        · simp
    · rw [aerase, if_neg h₀] at h
      by_cases hk : k = k₀
      · simp [alookup, hk]
      · rw [alookup, if_neg hk] at h ⊢
        exact ih h

theorem isSome_alookup_ainsert {κ α : Type} [DecidableEq κ]
    (m : List (κ × α)) (g : κ) (v : α) (k : κ)
    (h : (alookup (ainsert m g v) k).isSome = true) :
    k = g ∨ (alookup m k).isSome = true := by
  rw [alookup_ainsert] at h
  by_cases hk : k = g
  · exact Or.inl hk
  · rw [if_neg hk] at h
    exact Or.inr h

theorem getD_mem_of_lt (l : List Nat) (i : Nat) (h : i < l.length) :
    l.getD i 0 ∈ l := by
  rw [List.getD_eq_get?, List.get?_eq_get h]
  exact List.get_mem l i h

/-- The per-bucket-map property for the amended bucket-GC claim: the keys
are distinct and every bucket index is at least `lb`. -/
def BProp (lb : Nat) (tm : List (Nat × List Ref)) : Prop :=
  (tm.map Prod.fst).Nodup ∧ ∀ g, (alookup tm g).isSome = true → lb ≤ g

theorem fetchBuckets_bprop (localTime ltGroup : Nat) :
    ∀ (fuel g : Nat) (tm : List (Nat × List Ref)) (c : Core) (res : List Nat),
      (tm.map Prod.fst).Nodup →
      (∀ k, (alookup tm k).isSome = true → g ≤ k) →
      g + fuel = ltGroup + 1 →
      ((fetchBuckets localTime ltGroup g fuel tm c res).1.map Prod.fst).Nodup ∧
      ∀ k, (alookup (fetchBuckets localTime ltGroup g fuel tm c res).1 k).isSome = true →
        ltGroup ≤ k ∧ (alookup tm k).isSome = true := by
  intro fuel
  induction fuel with
  | zero =>
    intro g tm c res hnd hk hfg
    refine ⟨hnd, fun k hk' => ⟨?_, hk'⟩⟩
    have := hk k hk'
    omega
  | succ f ih =>
    intro g tm c res hnd hk hfg
    by_cases hg : g = ltGroup
    · have hf0 : f = 0 := by omega
      subst hf0
      unfold fetchBuckets
      rcases hl : alookup tm g with _ | lst
      · simp only [hl, if_pos hg]
        unfold fetchBuckets
        refine ⟨hnd, fun k hk' => ⟨?_, hk'⟩⟩
        have := hk k hk'
        omega
      · simp only [hl, if_pos hg]
        unfold fetchBuckets
        refine ⟨nodup_keys_ainsert _ _ _ hnd, fun k hk' => ?_⟩
        rcases isSome_alookup_ainsert _ _ _ _ hk' with he | hs
        · subst he
          exact ⟨by omega, by rw [hl]; rfl⟩
        · have := hk k hs
          exact ⟨by omega, hs⟩
    · unfold fetchBuckets
      rcases hl : alookup tm g with _ | lst
      · simp only [hl, if_neg hg]
        have hnd2 : ((aerase tm g).map Prod.fst).Nodup := nodup_keys_aerase _ _ hnd
        have hk2 : ∀ k, (alookup (aerase tm g) k).isSome = true → g + 1 ≤ k := by
          intro k hk'
          have hs : (alookup tm k).isSome = true := isSome_alookup_aerase _ _ _ hk'
          have hge : g ≤ k := hk k hs
          by_cases hkg : k = g
          · subst hkg
            rw [alookup_aerase_self _ _ hnd] at hk'
            exact Bool.noConfusion hk'
          · omega
        obtain ⟨hnd3, hsub⟩ := ih (g + 1) (aerase tm g) c res hnd2 hk2 (by omega)
        refine ⟨hnd3, fun k hk' => ?_⟩
        obtain ⟨hle, hs⟩ := hsub k hk'
        exact ⟨hle, isSome_alookup_aerase _ _ _ hs⟩
      · simp only [hl, if_neg hg]
        have hnd1 : ((ainsert tm g (scanBucket localTime lst [] [] c res).1).map
            Prod.fst).Nodup := nodup_keys_ainsert _ _ _ hnd
        have hnd2 := nodup_keys_aerase
          (ainsert tm g (scanBucket localTime lst [] [] c res).1) g hnd1
        have hstep : ∀ k,
            (alookup (aerase (ainsert tm g (scanBucket localTime lst [] [] c res).1) g)
              k).isSome = true → g + 1 ≤ k ∧ (alookup tm k).isSome = true := by
          intro k hk'
          have hs1 : (alookup (ainsert tm g (scanBucket localTime lst [] [] c res).1)
              k).isSome = true := isSome_alookup_aerase _ _ _ hk'
          by_cases hkg : k = g
          · subst hkg
            rw [alookup_aerase_self _ _ hnd1] at hk'
            exact Bool.noConfusion hk'
          · rcases isSome_alookup_ainsert _ _ _ _ hs1 with he | hs
            · exact absurd he hkg
            · have := hk k hs
              exact ⟨by omega, hs⟩
        obtain ⟨hnd3, hsub⟩ := ih (g + 1) _ (scanBucket localTime lst [] [] c res).2.1
          (scanBucket localTime lst [] [] c res).2.2 hnd2 (fun k hk' => (hstep k hk').1)
          (by omega)
        refine ⟨hnd3, fun k hk' => ?_⟩
        obtain ⟨hle, hs⟩ := hsub k hk'
        exact ⟨hle, (hstep k hs).2⟩

/-- Entry-level characterisation of one `add` slot: every entry of the
resulting topic list is an old entry, or sits at the processed topic with
the bucket map unchanged or extended by one ref at bucket
`regTime[i] / ticketGroupTime`. -/
theorem addSlotStep_mem (localTime minRad tid : Nat) (td : TicketData)
    (i topic : Nat) (topics : List (Nat × TopicState)) (rnds : List ℚ)
    (inc : Nat) (p : Nat × TopicState)
    (hp : p ∈ (addSlotStep localTime minRad tid td i topic (topics, rnds, inc)).1) :
    p ∈ topics ∨
    ∃ tt, alookup topics topic = some tt ∧
      ((TopicState.timeB p.2) = tt.timeB ∨
       ∃ tm, tt.timeB = some tm ∧
         (TopicState.timeB p.2) = some (ainsert tm (td.regTime.getD i 0 / ticketGroupTime)
           ((alookup tm (td.regTime.getD i 0 / ticketGroupTime)).getD []
             ++ [(tid, i)]))) := by
  unfold addSlotStep at hp
  dsimp only at hp
  rcases hl : alookup topics topic with _ | tt
  · rw [hl] at hp
    exact Or.inl hp
  · by_cases hir : isInRadius tt td.node.pfx = true
    · simp only [hl, if_pos hir] at hp
      rcases htc : (adjust localTime (td.regTime.getD i 0) minRad tt).converged with _ | _
      · simp only [htc, Bool.false_eq_true, if_false] at hp
        rcases mem_ainsert _ _ _ _ hp with he | hm
        · refine Or.inr ⟨tt, rfl, Or.inl ?_⟩
          rw [he]
          exact adjust_timeB ..
        · exact Or.inl hm
      · simp only [htc, if_true] at hp
        rcases htb : (adjust localTime (td.regTime.getD i 0) minRad tt).timeB with _ | tm
        · simp only [htb] at hp
          rcases mem_ainsert _ _ _ _ hp with he | hm
          · refine Or.inr ⟨tt, rfl, Or.inl ?_⟩
            rw [he]
            exact adjust_timeB ..
          · exact Or.inl hm
        · simp only [htb] at hp
          have htb' : tt.timeB = some tm := by
            rw [← adjust_timeB localTime (td.regTime.getD i 0) minRad tt]
            exact htb
          split_ifs at hp
          all_goals rcases mem_ainsert _ _ _ _ hp with he | hm
          all_goals try exact Or.inl hm
          all_goals first
            | (refine Or.inr ⟨tt, rfl, Or.inl ?_⟩
               rw [he]
               exact adjust_timeB ..)
            | (refine Or.inr ⟨tt, rfl, Or.inr ⟨tm, htb', ?_⟩⟩
               rw [he])
    · simp only [hl, if_neg hir] at hp
      exact Or.inl hp

theorem addSlotStep_bprop (localTime minRad tid : Nat) (td : TicketData)
    (i topic : Nat) (topics : List (Nat × TopicState)) (rnds : List ℚ)
    (inc : Nat) (lb : Nat)
    (hreg : lb ≤ td.regTime.getD i 0 / ticketGroupTime)
    (h : ∀ p ∈ topics, ∀ tm, TopicState.timeB p.2 = some tm → BProp lb tm) :
    ∀ p ∈ (addSlotStep localTime minRad tid td i topic (topics, rnds, inc)).1,
      ∀ tm, TopicState.timeB p.2 = some tm → BProp lb tm := by
  intro p hp tm htm
  rcases addSlotStep_mem localTime minRad tid td i topic topics rnds inc p hp
    with hold | ⟨tt, hl, hcase⟩
  · exact h p hold tm htm
  · have hmem := mem_of_alookup _ _ _ hl
    rcases hcase with heq | ⟨tm0, htb0, hins⟩
    · exact h (topic, tt) hmem tm (by rw [← heq]; exact htm)
    · obtain ⟨hnd0, hk0⟩ := h (topic, tt) hmem tm0 htb0
      rw [hins] at htm
      have htm' := Option.some.inj htm
      rw [← htm']
      refine ⟨nodup_keys_ainsert _ _ _ hnd0, fun g hg => ?_⟩
      rcases isSome_alookup_ainsert _ _ _ _ hg with he | hs
      · rw [he]
        exact hreg
      · exact hk0 g hs

theorem addSlots_bprop (localTime minRad tid : Nat) (td : TicketData) (lb : Nat)
    (hlb : lb ≤ localTime / ticketGroupTime)
    (hall : ∀ x ∈ td.regTime, localTime ≤ x) :
    ∀ (tps : List Nat) (i : Nat), i + tps.length ≤ td.regTime.length →
      ∀ (topics : List (Nat × TopicState)) (rnds : List ℚ) (inc : Nat),
      (∀ p ∈ topics, ∀ tm, TopicState.timeB p.2 = some tm → BProp lb tm) →
      ∀ p ∈ (addSlots localTime minRad tid td i tps (topics, rnds, inc)).1,
        ∀ tm, TopicState.timeB p.2 = some tm → BProp lb tm := by
  intro tps
  induction tps with
  | nil => exact fun i _ topics rnds inc h => h
  | cons topic rest ih =>
    intro i hlen topics rnds inc h
    have hi : i < td.regTime.length := by
      simp only [List.length_cons] at hlen
      omega
    have hreg : lb ≤ td.regTime.getD i 0 / ticketGroupTime := by
      have hx : localTime ≤ td.regTime.getD i 0 :=
        hall _ (getD_mem_of_lt _ _ hi)
      calc lb ≤ localTime / ticketGroupTime := hlb
        _ ≤ td.regTime.getD i 0 / ticketGroupTime := Nat.div_le_div_right hx
    have hstep := addSlotStep_bprop localTime minRad tid td i topic topics rnds inc
      lb hreg h
    simp only [addSlots]
    rcases hacc : addSlotStep localTime minRad tid td i topic (topics, rnds, inc)
      with ⟨topics2, rnds2, inc2⟩
    rw [hacc] at hstep
    exact ih (i + 1) (by simp only [List.length_cons] at hlen; omega)
      topics2 rnds2 inc2 hstep

theorem fetchTopics_bprop (localTime ltGroup lgf : Nat) (hle : lgf ≤ ltGroup) :
    ∀ (topics : List (Nat × TopicState)) (c : Core) (res : List Nat),
      (∀ p ∈ topics, ∀ tm, TopicState.timeB p.2 = some tm → BProp lgf tm) →
      ∀ p ∈ (fetchTopics localTime ltGroup lgf topics c res).1,
        ∀ tm, TopicState.timeB p.2 = some tm →
          BProp ltGroup tm ∧
          ∀ g, (alookup tm g).isSome = true →
            ∃ p0, p0 ∈ topics ∧ ∃ tm0, TopicState.timeB p0.2 = some tm0 ∧
              (alookup tm0 g).isSome = true := by
  intro topics
  induction topics with
  | nil =>
    intro c res _ p hp
    simp only [fetchTopics, List.not_mem_nil] at hp
  | cons hd rest ih =>
    obtain ⟨k, tt0⟩ := hd
    intro c res hpre p hp tm htm
    have hpre' : ∀ p ∈ rest, ∀ tm, TopicState.timeB p.2 = some tm → BProp lgf tm :=
      fun q hq => hpre q (List.mem_cons_of_mem _ hq)
    rcases htb : tt0.timeB with _ | tm0
    · simp only [fetchTopics, htb] at hp
      rcases List.mem_cons.1 hp with he | hm
      · subst he
        dsimp only at htm
        rw [htb] at htm
        exact Option.noConfusion htm
      · obtain ⟨hb, hex⟩ := ih c res hpre' p hm tm htm
        refine ⟨hb, fun g hg => ?_⟩
        obtain ⟨p0, hp0, tm1, htb1, hg1⟩ := hex g hg
        exact ⟨p0, List.mem_cons_of_mem _ hp0, tm1, htb1, hg1⟩
    · obtain ⟨hnd0, hk0⟩ := hpre (k, tt0) (List.mem_cons_self _ _) tm0 htb
      obtain ⟨hndb, hsub⟩ := fetchBuckets_bprop localTime ltGroup (ltGroup + 1 - lgf)
        lgf tm0 c res hnd0 hk0 (by omega)
      simp only [fetchTopics, htb] at hp
      rcases List.mem_cons.1 hp with he | hm
      · subst he
        dsimp only at htm
        have htm' := Option.some.inj htm
        rw [← htm']
        refine ⟨⟨hndb, fun g hg => (hsub g hg).1⟩, fun g hg => ?_⟩
        exact ⟨(k, tt0), List.mem_cons_self _ _, tm0, htb, (hsub g hg).2⟩
      · obtain ⟨hb, hex⟩ := ih
          (fetchBuckets localTime ltGroup lgf (ltGroup + 1 - lgf) tm0 c res).2.1
          (fetchBuckets localTime ltGroup lgf (ltGroup + 1 - lgf) tm0 c res).2.2
          hpre' p hm tm htm
        refine ⟨hb, fun g hg => ?_⟩
        obtain ⟨p0, hp0, tm1, htb1, hg1⟩ := hex g hg
        exact ⟨p0, List.mem_cons_of_mem _ hp0, tm1, htb1, hg1⟩

/-- The bucket-map invariant for the amended GC claim: for every tracked
registered topic, the bucket keys are distinct, and any existing bucket
index is at least `lastGroupFetched`, which is then nonzero. -/
def StInvB (st : St) : Prop :=
  ∀ p ∈ st.topics, ∀ tm, TopicState.timeB p.2 = some tm →
    (tm.map Prod.fst).Nodup ∧
    ∀ g, (alookup tm g).isSome = true →
      st.lastGroupFetched ≤ g ∧ 1 ≤ st.lastGroupFetched

/-- The trace conditions of the amended bucket-GC claim: local times are
non-decreasing across `add` and `fetch` (in bucket granularity), every
`add` happens at a local time of at least one bucket duration, and the
ticket handed to `add` has a regTime entry per topic, none of which
precedes the call's local time. -/
def opOkC9 : Op → St → Prop
  | Op.add localTime tid _, st =>
      st.lastGroupFetched ≤ localTime / ticketGroupTime ∧
      1 ≤ localTime / ticketGroupTime ∧
      ∀ td, alookup st.core.heap tid = some td →
        td.topics.length ≤ td.regTime.length ∧ ∀ x ∈ td.regTime, localTime ≤ x
  | Op.fetch localTime, st => st.lastGroupFetched ≤ localTime / ticketGroupTime
  | _, _ => True

theorem addTopicOp_bucketLB (t hashPfx : Nat) (reg : Bool) (st : St)
    (hinv : StInvB st) : StInvB (addTopicOp t hashPfx reg st) := by
  unfold addTopicOp
  rcases hl : alookup st.topics t with _ | tt
  · simp only [hl]
    intro p hp tm htm
    rcases mem_ainsert _ _ _ _ hp with he | hm
    · rw [he] at htm
      dsimp only [newtopicTickets] at htm
      rcases reg with _ | _
      · simp only [Bool.false_eq_true, if_false] at htm
        exact Option.noConfusion htm
      · simp only [if_true] at htm
        have he' := Option.some.inj htm
        rw [← he']
        refine ⟨List.nodup_nil, fun g hg => ?_⟩
        simp only [alookup, Option.isSome_none] at hg
        exact Bool.noConfusion hg
    · exact hinv p hm tm htm
  · simp only [hl]
    exact hinv

theorem newTicketOp_bucketLB (tid : Nat) (tps rts : List Nat) (node : NodeId)
    (serial issueTime : Nat) (st : St) (hinv : StInvB st) :
    StInvB (newTicketOp tid tps rts node serial issueTime st) := by
  unfold newTicketOp
  rcases alookup st.core.heap tid with _ | td
  · exact hinv
  · exact hinv

theorem addOp_bucketLB (localTime tid : Nat) (rnds : List ℚ) (st : St)
    (hinv : StInvB st)
    (h1 : st.lastGroupFetched ≤ localTime / ticketGroupTime)
    (h2 : 1 ≤ localTime / ticketGroupTime)
    (h3 : ∀ td, alookup st.core.heap tid = some td →
      td.topics.length ≤ td.regTime.length ∧ ∀ x ∈ td.regTime, localTime ≤ x) :
    StInvB (addOp localTime tid rnds st) := by
  unfold addOp
  rcases hl : alookup st.core.heap tid with _ | td
  · simp only [hl]
    exact hinv
  · simp only [hl]
    rcases hn : alookup st.core.nodes td.node with _ | x
    · simp only [hn, Option.isSome_none, Bool.false_eq_true, if_false]
      obtain ⟨hlen, hall⟩ := h3 td hl
      have hL1 : 1 ≤ (if st.lastGroupFetched = 0 then localTime / ticketGroupTime
          else st.lastGroupFetched) := by
        split_ifs with hz
        · exact h2
        · omega
      have hLle : (if st.lastGroupFetched = 0 then localTime / ticketGroupTime
          else st.lastGroupFetched) ≤ localTime / ticketGroupTime := by
        split_ifs with hz
        · exact le_refl _
        · exact h1
      have hpre : ∀ p ∈ st.topics, ∀ tm, TopicState.timeB p.2 = some tm →
          BProp (if st.lastGroupFetched = 0 then localTime / ticketGroupTime
            else st.lastGroupFetched) tm := by
        intro p hp tm htm
        obtain ⟨hnd, hk⟩ := hinv p hp tm htm
        by_cases hz : st.lastGroupFetched = 0
        · exact ⟨hnd, fun g hg => absurd ((hk g hg).2) (by omega)⟩
        · refine ⟨hnd, fun g hg => ?_⟩
          rw [if_neg hz]
          exact (hk g hg).1
      have hpost := addSlots_bprop localTime st.minRadius tid td
        (if st.lastGroupFetched = 0 then localTime / ticketGroupTime
          else st.lastGroupFetched) hLle hall td.topics 0 (by omega)
        st.topics rnds 0 hpre
      intro p hp tm htm
      obtain ⟨hnd, hk⟩ := hpost p hp tm htm
      exact ⟨hnd, fun g hg => ⟨hk g hg, hL1⟩⟩
    · simp only [hn, Option.isSome_some, if_true]
      exact hinv

theorem fetchOp_bucketLB (localTime : Nat) (st : St) (hinv : StInvB st)
    (h1 : st.lastGroupFetched ≤ localTime / ticketGroupTime) :
    StInvB (fetchOp localTime st).1 := by
  have hpre : ∀ p ∈ st.topics, ∀ tm, TopicState.timeB p.2 = some tm →
      BProp st.lastGroupFetched tm := by
    intro p hp tm htm
    obtain ⟨hnd, hk⟩ := hinv p hp tm htm
    exact ⟨hnd, fun g hg => (hk g hg).1⟩
  have hb := fetchTopics_bprop localTime (localTime / ticketGroupTime)
    st.lastGroupFetched h1 st.topics st.core [] hpre
  intro p hp tm htm
  obtain ⟨⟨hnd, hk⟩, hex⟩ := hb p hp tm htm
  refine ⟨hnd, fun g hg => ⟨hk g hg, ?_⟩⟩
  obtain ⟨p0, hp0, tm0, htb0, hg0⟩ := hex g hg
  have h1lgf := ((hinv p0 hp0 tm0 htb0).2 g hg0).2
  show 1 ≤ localTime / ticketGroupTime
  omega

theorem applyOp_bucketLB (op : Op) (st : St) (hinv : StInvB st)
    (hok : opOkC9 op st) : StInvB (applyOp op st) := by
  cases op with
  | addTopic t hashPfx reg => exact addTopicOp_bucketLB t hashPfx reg st hinv
  | newTicket tid tps rts node serial issueTime =>
    exact newTicketOp_bucketLB tid tps rts node serial issueTime st hinv
  | add localTime tid rnds =>
    exact addOp_bucketLB localTime tid rnds st hinv hok.1 hok.2.1 hok.2.2
  | fetch localTime => exact fetchOp_bucketLB localTime st hinv hok
  | adjMinR tp fp => exact hinv

theorem runOps_bucketLB (ops : List Op) :
    ∀ st, StInvB st → TraceP opOkC9 ops st → StInvB (runOps ops st) := by
  induction ops with
  | nil => exact fun st h _ => h
  | cons op rest ih =>
    intro st h htr
    exact ih (applyOp op st) (applyOp_bucketLB op st h htr.1) htr.2

theorem initialStore_bucketLB : StInvB initialStore :=
  fun p hp => absurd hp (List.not_mem_nil p)

theorem runOps_append_one (ops : List Op) (op : Op) :
    ∀ st, runOps (ops ++ [op]) st = applyOp op (runOps ops st) := by
  induction ops with
  | nil => exact fun st => rfl
  | cons o rest ih =>
    intro st
    simp only [List.cons_append, runOps]
    exact ih (applyOp o st)

/-- C9 (amended): under the trace conditions `opOkC9` — non-decreasing
bucket-granular local times, every `add` at a local time of at least one
bucket duration, and no ticket slot whose regTime precedes its `add`'s
local time — a final `fetch` at local time `lt` leaves no tracked topic's
time map with a bucket of index below `lt / ticketGroupTime`: stale
buckets are garbage-collected. -/
theorem c9_bucket_gc (ops : List Op) (lt : Nat)
    (h : TraceP opOkC9 (ops ++ [Op.fetch lt]) initialStore) :
    ∀ topic tt,
      alookup (runOps (ops ++ [Op.fetch lt]) initialStore).topics topic = some tt →
      ∀ tm, tt.timeB = some tm →
        ∀ g, (alookup tm g).isSome = true → lt / ticketGroupTime ≤ g := by
  intro topic tt hl tm htm g hg
  have hinv := runOps_bucketLB (ops ++ [Op.fetch lt]) initialStore
    initialStore_bucketLB h
  have hmem := mem_of_alookup _ _ _ hl
  have hthis := (hinv (topic, tt) hmem tm htm).2 g hg
  rw [runOps_append_one] at hthis
  have hlg : (applyOp (Op.fetch lt) (runOps ops initialStore)).lastGroupFetched
      = lt / ticketGroupTime := rfl
  rw [hlg] at hthis
  exact hthis.1

/-- The trace for the amended-claim witness: one registered topic, one
ticket due at minute 15 whose `add` at minute 1 converges the topic and
schedules the ref into bucket 15; the final `fetch` happens at minute 2. -/
def c9wOps : List Op :=
  [Op.addTopic 0 0 true,
   Op.newTicket 0 [0] [900000000000] ⟨0, 0⟩ 0 0,
   Op.add 60000000000 0 [0]]

set_option maxRecDepth 100000 in
/-- Closed witness for the amended bucket-GC theorem: on the concrete
trace `c9wOps ++ [fetch 120000000000]` all side conditions hold, bucket 15
survives, and the theorem yields 120000000000 / ticketGroupTime ≤ 15. -/
theorem c9_bucket_gc_witness : (120000000000 : Nat) / ticketGroupTime ≤ 15 := by
  have c9w_trace : TraceP opOkC9 (c9wOps ++ [Op.fetch 120000000000]) initialStore := by
    refine ⟨?_, ?_, ⟨?_, ?_, ?_⟩, ?_, ?_⟩
    · trivial
    · trivial
    · decide
    · decide
    · intro td htd
      have h2 : alookup ((applyOp (Op.newTicket 0 [0] [900000000000] ⟨0, 0⟩ 0 0)
          (applyOp (Op.addTopic 0 0 true) initialStore)).core.heap) 0
          = some { topics := [0], regTime := [900000000000], serial := 0,
                   issueTime := 0, node := ⟨0, 0⟩, refCnt := 0, pong := [] } := rfl
      rw [h2] at htd
      have he : td = { topics := [0], regTime := [900000000000], serial := 0,
                       issueTime := 0, node := ⟨0, 0⟩, refCnt := 0, pong := [] } :=
        (Option.some.inj htd).symm
      rw [he]
      refine ⟨by decide, fun x hx => ?_⟩
      rw [List.mem_singleton.1 hx]
      decide
    · show (applyOp (Op.add 60000000000 0 [0])
          (applyOp (Op.newTicket 0 [0] [900000000000] ⟨0, 0⟩ 0 0)
            (applyOp (Op.addTopic 0 0 true) initialStore))).lastGroupFetched
          ≤ 120000000000 / ticketGroupTime
      decide
    · trivial
  have htB : (alookup (runOps (c9wOps ++ [Op.fetch 120000000000]) initialStore).topics 0).map
      TopicState.timeB = some (some [(15, [(0, 0)])]) := by
    with_unfolding_all decide
  rcases hlook : alookup (runOps (c9wOps ++ [Op.fetch 120000000000]) initialStore).topics 0
    with _ | tt
  · rw [hlook] at htB
    exact Option.noConfusion htB
  · rw [hlook] at htB
    have htb : tt.timeB = some [(15, [(0, 0)])] := Option.some.inj htB
    exact c9_bucket_gc c9wOps 120000000000 c9w_trace 0 tt hlook [(15, [(0, 0)])] htb
      15 (by rfl)
